import Mathlib

/-!
Shallow embedding of the `set-search-experiment` crate: ordered sets
(`src/set.rs`), the frequency mapping (`src/mapping.rs`), the Jaccard
evaluator with its length and position filters (`src/metric.rs`), the
linear-scan index (`src/linear_scan.rs`) and the inverted prefix index
(`src/inverted_index.rs`).

Modelling conventions:
* `OrderedSet<u32>` is a `List ℕ`; the invariant (strictly increasing)
  is carried as a `List.Sorted (· < ·)` hypothesis where needed.
* `f32` arithmetic is modelled exactly over `ℚ`; the `abs_diff_eq`
  epsilon comparisons of the crate (which exist to absorb rounding of
  inexact binary floats) degenerate to exact equality in this model.
* Rust's `.ceil() as usize` / `.floor() as usize` on the non-negative
  quantities of the crate are `Nat.ceil` / `Nat.floor` on `ℚ`.
* The two-pointer merge loops of `metric.rs` iterate while both cursors
  are in range, so they run at most `|a| + |b|` steps; they are written
  with that number as structural fuel.
* `Vec::sort_unstable` on a totally ordered type is modelled by
  `List.insertionSort`; for the frequency sort of `mapping.rs`, whose
  keys can tie, this fixes the tie-break "smaller element first"
  (the crate's tie order among equal frequencies is unspecified).
-/

/-! ## src/set.rs -/

/-- Inner loop of `OrderedSet::from_sorted`: `last` is the element most
recently pushed; the source returns an error when `last >= elem`. -/
def fromSortedGo (last : ℕ) : List ℕ → Option (List ℕ)
  | [] => some []
  | x :: xs => if x ≤ last then none else (fromSortedGo x xs).map (x :: ·)

/-- `OrderedSet::from_sorted`: builds the set, failing (`none`) as soon as
two consecutive input elements `a, b` satisfy `a ≥ b`. -/
def fromSorted : List ℕ → Option (List ℕ)
  | [] => some []
  | x :: xs => (fromSortedGo x xs).map (x :: ·)

/-- `Vec::dedup`: removes consecutive equal elements. -/
def dedupAdj : List ℕ → List ℕ
  | [] => []
  | [x] => [x]
  | x :: y :: xs => if x = y then dedupAdj (y :: xs) else x :: dedupAdj (y :: xs)

/-- `OrderedSet::from_unsorted`: sort (`sort_unstable_by` with the natural
order), then deduplicate adjacent equals. -/
def fromUnsorted (l : List ℕ) : List ℕ := dedupAdj (List.insertionSort (· ≤ ·) l)

/-! ## src/metric.rs -/

structure FilterConfig where
  length : Bool
  position : Bool
deriving DecidableEq

inductive Evaluation where
  | LengthFiltered
  | PositionFiltered
  | Verified
  | Undefined
  | Accepted (dist : ℚ)
deriving DecidableEq

/-- `radius.max(0.0).min(1.0)`. -/
def clamp01 (r : ℚ) : ℚ := min (max r 0) 1

/-- `Jaccard::threshold`. -/
def threshold (radius : ℚ) : ℚ := 1 - clamp01 radius

/-- `Jaccard::overlap_factor`. -/
def overlapFactor (t : ℚ) : ℚ := t / (1 + t)

/-- Lower end of `Jaccard::length_bounds` for `threshold ≠ 0`. -/
def lengthLower (baseLen : ℕ) (t : ℚ) : ℕ := ⌈(baseLen : ℚ) * t⌉₊

/-- Upper end of `Jaccard::length_bounds` for `threshold ≠ 0`. -/
def lengthUpper (baseLen : ℕ) (t : ℚ) : ℕ := ⌊(baseLen : ℚ) / t⌋₊

/-- `self.length_bounds.contains(&b.len())`: for `threshold == 0` the
bounds are `0..=usize::MAX`, which contains every length. -/
def lengthContains (baseLen bLen : ℕ) (t : ℚ) : Prop :=
  if t = 0 then True else lengthLower baseLen t ≤ bLen ∧ bLen ≤ lengthUpper baseLen t

instance (baseLen bLen : ℕ) (t : ℚ) : Decidable (lengthContains baseLen bLen t) := by
  unfold lengthContains
  infer_instance

/-- The two-pointer merge of `Jaccard::distance`, counting the
intersection.  The fuel is the combined length of the two lists, an upper
bound on the number of loop iterations (each iteration advances at least
one cursor). -/
def interCountF : ℕ → List ℕ → List ℕ → ℕ
  | _, [], _ => 0
  | _, _ :: _, [] => 0
  | 0, _ :: _, _ :: _ => 0
  | fuel + 1, x :: xs, y :: ys =>
    if x = y then interCountF fuel xs ys + 1
    else if x < y then interCountF fuel xs (y :: ys)
    else interCountF fuel (x :: xs) ys

def interCount (a b : List ℕ) : ℕ := interCountF (a.length + b.length) a b

/-- `Jaccard::distance`. -/
def jaccardDistance (a b : List ℕ) : Option ℚ :=
  if a = [] ∧ b = [] then none
  else if a = [] ∨ b = [] then some 1
  else
    some (1 - (interCount a b : ℚ) / ((a.length + b.length - interCount a b : ℕ) : ℚ))

/-- The merge loop of `Jaccard::evaluate` with the position filter:
after each advance of the cursors the remaining-suffix check may return
`PositionFiltered` (`none`); otherwise the loop ends with the
accumulated intersection count (`some`).  Fuel as in `interCountF`. -/
def mergeLoopF (pos : Bool) (ovT : ℕ) : ℕ → List ℕ → List ℕ → ℕ → Option ℕ
  | _, [], _, acc => some acc
  | _, _ :: _, [], acc => some acc
  | 0, _ :: _, _ :: _, acc => some acc
  | fuel + 1, x :: xs, y :: ys, acc =>
    if x = y then
      if pos ∧ acc + 1 + min xs.length ys.length < ovT then none
      else mergeLoopF pos ovT fuel xs ys (acc + 1)
    else if x < y then
      if pos ∧ acc + min xs.length (ys.length + 1) < ovT then none
      else mergeLoopF pos ovT fuel xs (y :: ys) acc
    else
      if pos ∧ acc + min (xs.length + 1) ys.length < ovT then none
      else mergeLoopF pos ovT fuel (x :: xs) ys acc

/-- `Jaccard::evaluate` for a `Jaccard` built by `Jaccard::new(base, radius,
cfg)` (or re-tuned by `update_radius(radius)`): the branch structure follows
the source line by line.  The `Option.getD` models the `unwrap()` of
`self.distance(b)` in the `overlap_factor == 0` branch, where the source
value is never `None` because the both-empty case returned earlier. -/
def evaluate (base : List ℕ) (radius : ℚ) (cfg : FilterConfig) (other : List ℕ) : Evaluation :=
  let t := threshold radius
  if base = [] ∧ other = [] then .Undefined
  else if overlapFactor t = 0 then .Accepted ((jaccardDistance base other).getD 1)
  else if base = [] ∨ other = [] then .Verified
  else if cfg.length ∧ ¬ lengthContains base.length other.length t then .LengthFiltered
  else
    let ovT : ℕ := ⌈overlapFactor t * ((base.length : ℚ) + (other.length : ℚ))⌉₊
    match mergeLoopF cfg.position ovT (base.length + other.length) base other 0 with
    | none => .PositionFiltered
    | some inter =>
      if inter < ovT then .Verified
      else .Accepted (1 - (inter : ℚ) / ((base.length + other.length - inter : ℕ) : ℚ))

/-! ## src/mapping.rs and src/lib.rs -/

structure RecordM where
  id : ℕ
  set : List ℕ
deriving DecidableEq, Inhabited

/-- The frequency tally of `Mapping::from_records`: how many times element
`e` occurs across all record sets. -/
def freqOf (records : List RecordM) (e : ℕ) : ℕ :=
  records.foldl (fun acc r => acc + r.set.count e) 0

/-- The comparator of the `sort_unstable_by` call in
`Mapping::from_records`: pairs `(element, frequency)` by frequency. -/
def freqLe (p q : ℕ × ℕ) : Prop := p.2 ≤ q.2

instance : DecidableRel freqLe := fun p q => by unfold freqLe; infer_instance

/-- `elem_freq` after sorting by ascending frequency. -/
def sortedElemFreqs (records : List RecordM) (u : ℕ) : List (ℕ × ℕ) :=
  List.insertionSort freqLe ((List.range u).map (fun e => (e, freqOf records e)))

/-- The table scatter loop of `Mapping::from_records`:
`mapping[src] = tgt` for each `(tgt, (src, _))` of the enumerated sorted
pair list, over an initial `vec![0; universe]`. -/
def mappingTable (records : List RecordM) (u : ℕ) : List ℕ :=
  ((sortedElemFreqs records u).enum).foldl
    (fun m p => m.set p.2.1 p.1) (List.replicate u 0)

/-- `Mapping::apply`: map every element through the table and rebuild via
`from_unsorted`.  The source indexes `self.mapping[elem]` directly; the
`getD` default is never used when all elements are below the universe. -/
def applyMapping (table : List ℕ) (s : List ℕ) : List ℕ :=
  fromUnsorted (s.map (fun e => table.getD e 0))

/-- `Answer` with its total order: by distance, then by id (the source
compares f32 distances with an absolute-epsilon equality; the exact model
compares rationals exactly). -/
structure Answer where
  id : ℕ
  dist : ℚ
deriving DecidableEq

def answerLe (x y : Answer) : Prop :=
  x.dist < y.dist ∨ (x.dist = y.dist ∧ x.id ≤ y.id)

instance : DecidableRel answerLe := fun x y => by unfold answerLe; infer_instance

/-! ## src/linear_scan.rs -/

/-- The `if let Evaluation::Accepted(dist)` collection pattern. -/
def acceptDist : Evaluation → Option ℚ
  | .Accepted d => some d
  | _ => none

/-- The remapped record store built by `LinearScan::from_records` and
`InvertedIndex::from_records`. -/
def mapRecords (records : List RecordM) (u : ℕ) : List RecordM :=
  records.map (fun r => ⟨r.id, applyMapping (mappingTable records u) r.set⟩)

/-- `LinearScan::range_query`. -/
def rangeQueryLS (records : List RecordM) (u : ℕ) (cfg : FilterConfig)
    (q : List ℕ) (r : ℚ) : List Answer :=
  let qm := applyMapping (mappingTable records u) q
  List.insertionSort answerLe
    ((mapRecords records u).filterMap
      (fun rec => (acceptDist (evaluate qm r cfg rec.set)).map (fun d => ⟨rec.id, d⟩)))

/-- The max-heap of `topk_query`, as a list sorted descending by the
`Answer` order (head = maximum). -/
def heapPush (x : Answer) : List Answer → List Answer
  | [] => [x]
  | y :: ys => if answerLe x y then y :: heapPush x ys else x :: y :: ys

structure TopkState where
  heap : List Answer
  radius : ℚ

/-- One iteration of the record loop of `LinearScan::topk_query`.
`none` models a panic: the source calls `heap.peek().unwrap()`, which
panics on an empty heap (reachable when `k = 0`). -/
def topkStep (cfg : FilterConfig) (qm : List ℕ) (k : ℕ)
    (st : TopkState) (rec : RecordM) : Option TopkState :=
  match evaluate qm st.radius cfg rec.set with
  | .Accepted d =>
    if st.heap.length < k then
      let heap2 := heapPush ⟨rec.id, d⟩ st.heap
      if heap2.length = k then
        match heap2 with
        | [] => none
        | top :: _ => some ⟨heap2, top.dist⟩
      else some ⟨heap2, st.radius⟩
    else
      match st.heap with
      | [] => none
      | top :: rest =>
        if d < top.dist then
          match heapPush ⟨rec.id, d⟩ rest with
          | [] => none
          | top2 :: rest2 => some ⟨top2 :: rest2, top2.dist⟩
        else some st
  | _ => some st

/-- `LinearScan::topk_query`: evaluator built at radius 1.0, tightened to
the heap maximum whenever the heap reaches or changes at size `k`;
`none` models a panic. -/
def topkQuery (records : List RecordM) (u : ℕ) (cfg : FilterConfig)
    (q : List ℕ) (k : ℕ) : Option (List Answer) :=
  let qm := applyMapping (mappingTable records u) q
  ((mapRecords records u).foldlM (fun st rec => topkStep cfg qm k st rec) ⟨[], 1⟩).map
    (fun st => st.heap.reverse)

/-- The multiset of defined distances of a database against a query:
the distances `topk_query` can ever accept (both-empty pairs have none). -/
def definedDistances (records : List RecordM) (u : ℕ) (q : List ℕ) : List ℚ :=
  (mapRecords records u).filterMap
    (fun rec => jaccardDistance (applyMapping (mappingTable records u) q) rec.set)

/-! ## src/inverted_index.rs -/

/-- The constant `FILTER_CONFIG` of `inverted_index.rs`. -/
def cfgTT : FilterConfig := ⟨true, true⟩

/-- `InvertedIndex::index_prefix_len`. -/
def indexPrefixLen (len : ℕ) (t : ℚ) : ℕ := ⌊(len : ℚ) * (1 - t) / (1 + t)⌋₊ + 1

/-- `InvertedIndex::query_prefix_len`. -/
def queryPrefixLen (len : ℕ) (t : ℚ) : ℕ := ⌊(len : ℚ) * (1 - t)⌋₊ + 1

/-- The posting list of element `e`: positions of the records holding `e`
within their indexed prefix, in build order (ascending position). -/
def postings (recs : List RecordM) (t : ℚ) (e : ℕ) : List ℕ :=
  (List.range recs.length).filter
    (fun i => e ∈ ((recs.getD i default).set).take (indexPrefixLen (recs.getD i default).set.length t))

/-- The `HashSet` deduplicator of `InvertedIndex::range_query`: keeps the
first occurrence of every candidate position. -/
def dedupFirstAux (seen : List ℕ) : List ℕ → List ℕ
  | [] => []
  | x :: xs => if x ∈ seen then dedupFirstAux seen xs else x :: dedupFirstAux (x :: seen) xs

def dedupFirst (l : List ℕ) : List ℕ := dedupFirstAux [] l

/-- `InvertedIndex::range_query` on an index built by
`InvertedIndex::from_records(records, u, r)`: probe the posting list of
every element of the query prefix, deduplicate candidate positions,
verify each with a `Jaccard` built at radius `1 - threshold` under
`FILTER_CONFIG`, and sort the accepted answers. -/
def rangeQueryPI (records : List RecordM) (u : ℕ) (r : ℚ) (q : List ℕ) : List Answer :=
  let t := threshold r
  let recs := mapRecords records u
  let qm := applyMapping (mappingTable records u) q
  let probes := qm.take (queryPrefixLen qm.length t)
  let cands := dedupFirst ((probes.map (fun e => postings recs t e)).flatten)
  List.insertionSort answerLe
    (cands.filterMap (fun i =>
      (acceptDist (evaluate qm (1 - t) cfgTT (recs.getD i default).set)).map
        (fun d => ⟨(recs.getD i default).id, d⟩)))

/-! ## Set-level Jaccard quantities for the specification claims -/

/-- `|A ∩ B|` as the number of elements of `a` occurring in `b`. -/
def interCard (a b : List ℕ) : ℕ := (a.filter (fun x => x ∈ b)).length

/-- `|A ∪ B|` as `|A|` plus the number of elements of `b` outside `a`. -/
def unionCard (a b : List ℕ) : ℕ := a.length + (b.filter (fun x => x ∉ a)).length

/-- The Jaccard similarity `|A ∩ B| / |A ∪ B|`. -/
def jaccardSim (a b : List ℕ) : ℚ := (interCard a b : ℚ) / (unionCard a b : ℚ)

/-! ## Basic lemmas about the merge loops -/

/-- The code quantity `1 − intersection/union` for a non-empty pair. -/
def simQ (a b : List ℕ) : ℚ :=
  (interCount a b : ℚ) / ((a.length + b.length - interCount a b : ℕ) : ℚ)

theorem interCountF_le_left : ∀ (fuel : ℕ) (a b : List ℕ), interCountF fuel a b ≤ a.length := by
  intro fuel
  induction fuel with
  | zero => intro a b; cases a <;> cases b <;> simp [interCountF]
  | succ n ih =>
    intro a b
    cases a with
    | nil => simp [interCountF]
    | cons x xs =>
      cases b with
      | nil => simp [interCountF]
      | cons y ys =>
        simp only [interCountF]
        rcases eq_or_ne x y with h | h
        · simp only [if_pos h, List.length_cons]
          exact Nat.succ_le_succ (ih xs ys)
        · simp only [if_neg h]
          rcases lt_or_le x y with h2 | h2
          · simpa [if_pos h2] using Nat.le_succ_of_le (ih xs (y :: ys))
          · simpa [if_neg (not_lt.mpr h2)] using ih (x :: xs) ys

theorem interCountF_le_right : ∀ (fuel : ℕ) (a b : List ℕ), interCountF fuel a b ≤ b.length := by
  intro fuel
  induction fuel with
  | zero => intro a b; cases a <;> cases b <;> simp [interCountF]
  | succ n ih =>
    intro a b
    cases a with
    | nil => simp [interCountF]
    | cons x xs =>
      cases b with
      | nil => simp [interCountF]
      | cons y ys =>
        simp only [interCountF]
        rcases eq_or_ne x y with h | h
        · simp only [if_pos h, List.length_cons]
          exact Nat.succ_le_succ (ih xs ys)
        · simp only [if_neg h]
          rcases lt_or_le x y with h2 | h2
          · simpa [if_pos h2] using ih xs (y :: ys)
          · simpa [if_neg (not_lt.mpr h2)] using Nat.le_succ_of_le (ih (x :: xs) ys)

theorem interCountF_fuel_eq :
    ∀ (fuel fuel' : ℕ) (a b : List ℕ), a.length + b.length ≤ fuel →
      a.length + b.length ≤ fuel' → interCountF fuel a b = interCountF fuel' a b := by
  intro fuel
  induction fuel with
  | zero =>
    intro fuel' a b h _
    cases a with
    | nil => cases fuel' <;> simp [interCountF]
    | cons x xs =>
      cases b with
      | nil => cases fuel' <;> simp [interCountF]
      | cons y ys => simp at h
  | succ n ih =>
    intro fuel' a b h h'
    cases a with
    | nil => cases fuel' <;> simp [interCountF]
    | cons x xs =>
      cases b with
      | nil => cases fuel' <;> simp [interCountF]
      | cons y ys =>
        cases fuel' with
        | zero => simp at h'
        | succ m =>
          simp only [List.length_cons] at h h'
          simp only [interCountF]
          rcases eq_or_ne x y with hxy | hxy
          · simp only [if_pos hxy]
            rw [ih m xs ys (by omega) (by omega)]
          · simp only [if_neg hxy]
            rcases lt_or_le x y with h2 | h2
            · simp only [if_pos h2]
              rw [ih m xs (y :: ys) (by simp; omega) (by simp; omega)]
            · simp only [if_neg (not_lt.mpr h2)]
              rw [ih m (x :: xs) ys (by simp; omega) (by simp; omega)]

theorem interCountF_eq_interCount (fuel : ℕ) (a b : List ℕ)
    (h : a.length + b.length ≤ fuel) : interCountF fuel a b = interCount a b :=
  interCountF_fuel_eq fuel (a.length + b.length) a b h le_rfl

theorem interCount_nil_left (b : List ℕ) : interCount [] b = 0 := by
  simp [interCount, interCountF]

theorem interCount_nil_right (a : List ℕ) : interCount a [] = 0 := by
  cases a <;> simp [interCount, interCountF]

theorem interCount_cons (x y : ℕ) (xs ys : List ℕ) :
    interCount (x :: xs) (y :: ys) =
      if x = y then interCount xs ys + 1
      else if x < y then interCount xs (y :: ys)
      else interCount (x :: xs) ys := by
  unfold interCount
  have hl : (x :: xs).length + (y :: ys).length = xs.length + ys.length + 1 + 1 := by
    simp [List.length_cons]
    omega
  rw [hl]
  show interCountF (xs.length + ys.length + 1 + 1) (x :: xs) (y :: ys) = _
  simp only [interCountF]
  rcases eq_or_ne x y with h | h
  · rw [if_pos h, if_pos h, interCountF_eq_interCount _ _ _ (by omega)]
    rfl
  · rw [if_neg h, if_neg h]
    rcases lt_or_le x y with h2 | h2
    · rw [if_pos h2, if_pos h2,
        interCountF_eq_interCount _ _ _ (by simp [List.length_cons]; omega)]
      rfl
    · rw [if_neg (not_lt.mpr h2), if_neg (not_lt.mpr h2),
        interCountF_eq_interCount _ _ _ (by simp [List.length_cons]; omega)]
      rfl

theorem interCount_le_left (a b : List ℕ) : interCount a b ≤ a.length :=
  interCountF_le_left _ a b

theorem interCount_le_right (a b : List ℕ) : interCount a b ≤ b.length :=
  interCountF_le_right _ a b


theorem interCountF_succ_eq (n : ℕ) (x y : ℕ) (xs ys : List ℕ) (h : x = y) :
    interCountF (n + 1) (x :: xs) (y :: ys) = interCountF n xs ys + 1 := by
  simp [interCountF, h]

theorem interCountF_succ_lt (n : ℕ) (x y : ℕ) (xs ys : List ℕ) (h1 : x ≠ y) (h2 : x < y) :
    interCountF (n + 1) (x :: xs) (y :: ys) = interCountF n xs (y :: ys) := by
  simp [interCountF, h1, h2]

theorem interCountF_succ_gt (n : ℕ) (x y : ℕ) (xs ys : List ℕ) (h1 : x ≠ y) (h2 : ¬ x < y) :
    interCountF (n + 1) (x :: xs) (y :: ys) = interCountF n (x :: xs) ys := by
  simp [interCountF, h1, h2]

theorem interCount_comm (a b : List ℕ) : interCount a b = interCount b a := by
  have H : ∀ (n : ℕ) (a b : List ℕ), a.length + b.length = n →
      interCount a b = interCount b a := by
    intro n
    induction n using Nat.strong_induction_on with
    | _ n ih =>
      intro a b hn
      cases a with
      | nil => rw [interCount_nil_left, interCount_nil_right]
      | cons x xs =>
        cases b with
        | nil => rw [interCount_nil_left, interCount_nil_right]
        | cons y ys =>
          rw [interCount_cons, interCount_cons]
          rcases eq_or_ne x y with h | h
          · rw [if_pos h, if_pos h.symm,
              ih (xs.length + ys.length) (by simp at hn; omega) xs ys rfl]
          · rw [if_neg h, if_neg (Ne.symm h)]
            rcases lt_or_le x y with h2 | h2
            · rw [if_pos h2, if_neg (not_lt.mpr h2.le),
                ih (xs.length + (y :: ys).length) (by simp at hn ⊢; omega) xs (y :: ys) rfl]
            · have h3 : y < x := lt_of_le_of_ne h2 (Ne.symm h)
              rw [if_neg (not_lt.mpr h3.le), if_pos h3,
                ih ((x :: xs).length + ys.length) (by simp at hn ⊢; omega) (x :: xs) ys rfl]
  exact H (a.length + b.length) a b rfl

theorem mergeLoopF_false (ovT : ℕ) :
    ∀ (fuel : ℕ) (a b : List ℕ) (acc : ℕ),
      mergeLoopF false ovT fuel a b acc = some (acc + interCountF fuel a b) := by
  intro fuel
  induction fuel with
  | zero => intro a b acc; cases a <;> cases b <;> simp [mergeLoopF, interCountF]
  | succ n ih =>
    intro a b acc
    cases a with
    | nil => simp [mergeLoopF, interCountF]
    | cons x xs =>
      cases b with
      | nil => simp [mergeLoopF, interCountF]
      | cons y ys =>
        rcases eq_or_ne x y with h | h
        · rw [interCountF_succ_eq n x y xs ys h]
          simp only [mergeLoopF, if_pos h, Bool.false_eq_true, false_and, if_false]
          rw [ih]
          congr 1
          omega
        · rcases lt_or_le x y with h2 | h2
          · rw [interCountF_succ_lt n x y xs ys h h2]
            simp only [mergeLoopF, if_neg h, if_pos h2, Bool.false_eq_true, false_and, if_false]
            exact ih xs (y :: ys) acc
          · rw [interCountF_succ_gt n x y xs ys h (not_lt.mpr h2)]
            simp only [mergeLoopF, if_neg h, if_neg (not_lt.mpr h2), Bool.false_eq_true,
              false_and, if_false]
            exact ih (x :: xs) ys acc

theorem mergeLoopF_some (pos : Bool) (ovT : ℕ) :
    ∀ (fuel : ℕ) (a b : List ℕ) (acc n : ℕ),
      mergeLoopF pos ovT fuel a b acc = some n → n = acc + interCountF fuel a b := by
  intro fuel
  induction fuel with
  | zero =>
    intro a b acc n h
    cases a <;> cases b <;> simp [mergeLoopF, interCountF] at h ⊢ <;> omega
  | succ m ih =>
    intro a b acc n h
    cases a with
    | nil =>
      simp [mergeLoopF] at h
      simp [interCountF]
      omega
    | cons x xs =>
      cases b with
      | nil =>
        simp [mergeLoopF] at h
        simp [interCountF]
        omega
      | cons y ys =>
        rcases eq_or_ne x y with hxy | hxy
        · rw [interCountF_succ_eq m x y xs ys hxy]
          simp only [mergeLoopF, if_pos hxy] at h
          rcases ite_eq_iff.mp h with ⟨_, h2⟩ | ⟨_, h2⟩
          · exact absurd h2 (by simp)
          · have := ih xs ys (acc + 1) n h2
            omega
        · rcases lt_or_le x y with h2 | h2
          · rw [interCountF_succ_lt m x y xs ys hxy h2]
            simp only [mergeLoopF, if_neg hxy, if_pos h2] at h
            rcases ite_eq_iff.mp h with ⟨_, h3⟩ | ⟨_, h3⟩
            · exact absurd h3 (by simp)
            · exact ih xs (y :: ys) acc n h3
          · rw [interCountF_succ_gt m x y xs ys hxy (not_lt.mpr h2)]
            simp only [mergeLoopF, if_neg hxy, if_neg (not_lt.mpr h2)] at h
            rcases ite_eq_iff.mp h with ⟨_, h3⟩ | ⟨_, h3⟩
            · exact absurd h3 (by simp)
            · exact ih (x :: xs) ys acc n h3

theorem mergeLoopF_pos_of_ge (ovT : ℕ) :
    ∀ (fuel : ℕ) (a b : List ℕ) (acc : ℕ), ovT ≤ acc + interCountF fuel a b →
      mergeLoopF true ovT fuel a b acc = some (acc + interCountF fuel a b) := by
  intro fuel
  induction fuel with
  | zero => intro a b acc _; cases a <;> cases b <;> simp [mergeLoopF, interCountF]
  | succ n ih =>
    intro a b acc hge
    cases a with
    | nil => simp [mergeLoopF, interCountF]
    | cons x xs =>
      cases b with
      | nil => simp [mergeLoopF, interCountF]
      | cons y ys =>
        rcases eq_or_ne x y with hxy | hxy
        · rw [interCountF_succ_eq n x y xs ys hxy] at hge ⊢
          have hle : interCountF n xs ys ≤ min xs.length ys.length :=
            le_min (interCountF_le_left n xs ys) (interCountF_le_right n xs ys)
          simp only [mergeLoopF, if_pos hxy]
          rw [if_neg (by simp only [true_and]; omega)]
          rw [ih xs ys (acc + 1) (by omega)]
          congr 1
          omega
        · rcases lt_or_le x y with h2 | h2
          · rw [interCountF_succ_lt n x y xs ys hxy h2] at hge ⊢
            have hle : interCountF n xs (y :: ys) ≤ min xs.length (ys.length + 1) := by
              refine le_min (interCountF_le_left n xs (y :: ys)) ?_
              simpa using interCountF_le_right n xs (y :: ys)
            simp only [mergeLoopF, if_neg hxy, if_pos h2]
            rw [if_neg (by simp only [true_and]; omega)]
            exact ih xs (y :: ys) acc hge
          · rw [interCountF_succ_gt n x y xs ys hxy (not_lt.mpr h2)] at hge ⊢
            have hle : interCountF n (x :: xs) ys ≤ min (xs.length + 1) ys.length := by
              refine le_min ?_ (interCountF_le_right n (x :: xs) ys)
              simpa using interCountF_le_left n (x :: xs) ys
            simp only [mergeLoopF, if_neg hxy, if_neg (not_lt.mpr h2)]
            rw [if_neg (by simp only [true_and]; omega)]
            exact ih (x :: xs) ys acc hge

/-! ## Arithmetic facts about threshold, overlap factor and bounds -/

theorem clamp01_nonneg (r : ℚ) : 0 ≤ clamp01 r := by
  unfold clamp01
  rcases le_total 1 (max r 0) with h | h
  · rw [min_eq_right h]; norm_num
  · rw [min_eq_left h]; exact le_max_right r 0

theorem clamp01_le_one (r : ℚ) : clamp01 r ≤ 1 := min_le_right _ _

theorem clamp01_eq_one_iff (r : ℚ) : clamp01 r = 1 ↔ 1 ≤ r := by
  unfold clamp01
  constructor
  · intro h
    by_contra hlt
    push_neg at hlt
    rcases le_total r 0 with h0 | h0
    · rw [max_eq_right h0, min_eq_left (by norm_num : (0:ℚ) ≤ 1)] at h
      norm_num at h
    · rw [max_eq_left h0, min_eq_left hlt.le] at h
      exact absurd h (ne_of_lt hlt)
  · intro h
    rw [max_eq_left (le_trans (by norm_num) h), min_eq_right h]

theorem threshold_nonneg (r : ℚ) : 0 ≤ threshold r := by
  unfold threshold
  have := clamp01_le_one r
  linarith

theorem threshold_le_one (r : ℚ) : threshold r ≤ 1 := by
  unfold threshold
  have := clamp01_nonneg r
  linarith

theorem threshold_eq_zero_iff (r : ℚ) : threshold r = 0 ↔ 1 ≤ r := by
  unfold threshold
  rw [sub_eq_zero, eq_comm]
  exact clamp01_eq_one_iff r

theorem overlapFactor_eq_zero_iff (t : ℚ) (ht : 0 ≤ t) : overlapFactor t = 0 ↔ t = 0 := by
  unfold overlapFactor
  rw [div_eq_zero_iff]
  constructor
  · rintro (h | h)
    · exact h
    · exfalso; linarith
  · intro h; exact Or.inl h

theorem overlapFactor_nonneg (t : ℚ) (ht : 0 ≤ t) : 0 ≤ overlapFactor t := by
  unfold overlapFactor
  positivity

/-- The rational union size of a non-empty pair is positive. -/
theorem unionQ_pos (a b : List ℕ) (ha : a ≠ []) :
    (0 : ℚ) < ((a.length + b.length - interCount a b : ℕ) : ℚ) := by
  have h1 : interCount a b ≤ b.length := interCount_le_right a b
  have h2 : 1 ≤ a.length := by
    cases a with
    | nil => exact absurd rfl ha
    | cons x xs => simp [List.length_cons]
  have : 1 ≤ a.length + b.length - interCount a b := by omega
  exact_mod_cast Nat.lt_of_lt_of_le Nat.zero_lt_one this

theorem simQ_nonneg (a b : List ℕ) (ha : a ≠ []) : 0 ≤ simQ a b := by
  unfold simQ
  have := unionQ_pos a b ha
  positivity

theorem simQ_le_one (a b : List ℕ) (ha : a ≠ []) (hb : b ≠ []) : simQ a b ≤ 1 := by
  unfold simQ
  rw [div_le_one (unionQ_pos a b ha)]
  have h0 : interCount a b ≤ a.length := interCount_le_left a b
  have h1 : interCount a b ≤ b.length := interCount_le_right a b
  have h2 : 1 ≤ a.length := by
    cases a with
    | nil => exact absurd rfl ha
    | cons x xs => simp [List.length_cons]
  have h3 : interCount a b ≤ a.length + b.length - interCount a b := by omega
  exact_mod_cast h3

theorem jaccardDistance_nonempty (a b : List ℕ) (ha : a ≠ []) (hb : b ≠ []) :
    jaccardDistance a b = some (1 - simQ a b) := by
  unfold jaccardDistance simQ
  rw [if_neg (by simp [ha, hb]), if_neg (by simp [ha, hb])]

theorem jaccardDistance_bounds (a b : List ℕ) (d : ℚ) (h : jaccardDistance a b = some d) :
    0 ≤ d ∧ d ≤ 1 := by
  unfold jaccardDistance at h
  by_cases hab : a = [] ∧ b = []
  · rw [if_pos hab] at h
    exact absurd h (by simp)
  · rw [if_neg hab] at h
    by_cases hor : a = [] ∨ b = []
    · rw [if_pos hor] at h
      simp at h
      subst h
      norm_num
    · rw [if_neg hor] at h
      push_neg at hor
      simp at h
      have hs0 : 0 ≤ simQ a b := simQ_nonneg a b hor.1
      have hs1 : simQ a b ≤ 1 := simQ_le_one a b hor.1 hor.2
      unfold simQ at hs0 hs1
      constructor <;> [linarith [hs1, h]; linarith [hs0, h]]

/-- The overlap-threshold test of the evaluator is exactly the similarity
test `t ≤ sim`. -/
theorem ovT_le_iff (a b : List ℕ) (t : ℚ) (ha : a ≠ []) (ht : 0 ≤ t) :
    (⌈overlapFactor t * ((a.length : ℚ) + (b.length : ℚ))⌉₊ ≤ interCount a b) ↔
      t ≤ simQ a b := by
  have hU : (0 : ℚ) < ((a.length + b.length - interCount a b : ℕ) : ℚ) := unionQ_pos a b ha
  have hi : interCount a b ≤ a.length + b.length :=
    le_trans (interCount_le_left a b) (by omega)
  have hcast : ((a.length + b.length - interCount a b : ℕ) : ℚ) =
      (a.length : ℚ) + (b.length : ℚ) - (interCount a b : ℚ) := by
    push_cast [Nat.cast_sub hi]
    ring
  rw [Nat.ceil_le]
  unfold overlapFactor simQ
  rw [div_mul_eq_mul_div, div_le_iff₀ (by linarith), le_div_iff₀ hU, hcast]
  constructor <;> intro h <;> nlinarith

/-- Length-filter soundness: a candidate at least `t`-similar to the base
lies inside the length bounds. -/
theorem lengthContains_of_sim (a b : List ℕ) (t : ℚ) (ha : a ≠ []) (hb : b ≠ [])
    (ht : 0 ≤ t) (hsim : t ≤ simQ a b) : lengthContains a.length b.length t := by
  unfold lengthContains
  by_cases ht0 : t = 0
  · rw [if_pos ht0]; trivial
  · rw [if_neg ht0]
    have htpos : 0 < t := lt_of_le_of_ne ht (Ne.symm ht0)
    have hU : (0 : ℚ) < ((a.length + b.length - interCount a b : ℕ) : ℚ) := unionQ_pos a b ha
    have hi : interCount a b ≤ a.length + b.length :=
      le_trans (interCount_le_left a b) (by omega)
    have hcast : ((a.length + b.length - interCount a b : ℕ) : ℚ) =
        (a.length : ℚ) + (b.length : ℚ) - (interCount a b : ℚ) := by
      push_cast [Nat.cast_sub hi]
      ring
    have hla : (1 : ℚ) ≤ (a.length : ℚ) := by
      have : 1 ≤ a.length := by
        cases a with
        | nil => exact absurd rfl ha
        | cons x xs => simp [List.length_cons]
      exact_mod_cast this
    have hlb : (1 : ℚ) ≤ (b.length : ℚ) := by
      have : 1 ≤ b.length := by
        cases b with
        | nil => exact absurd rfl hb
        | cons x xs => simp [List.length_cons]
      exact_mod_cast this
    have hil : (interCount a b : ℚ) ≤ (a.length : ℚ) := by
      exact_mod_cast interCount_le_left a b
    have hir : (interCount a b : ℚ) ≤ (b.length : ℚ) := by
      exact_mod_cast interCount_le_right a b
    unfold simQ at hsim
    rw [le_div_iff₀ hU, hcast] at hsim
    constructor
    · unfold lengthLower
      rw [Nat.ceil_le]
      nlinarith
    · unfold lengthUpper
      refine Nat.le_floor ?_
      rw [le_div_iff₀ htpos]
      nlinarith

/-! ## Characterization of the evaluator -/

/-- Soundness: a candidate at least `threshold`-similar to a non-empty base
is accepted with its exact distance, under every filter configuration. -/
theorem evaluate_accept_of_sim (a b : List ℕ) (r : ℚ) (cfg : FilterConfig)
    (ha : a ≠ []) (hb : b ≠ []) (hsim : threshold r ≤ simQ a b) :
    evaluate a r cfg b = .Accepted (1 - simQ a b) := by
  have ht0 : 0 ≤ threshold r := threshold_nonneg r
  have hnand : ¬(a = [] ∧ b = []) := by simp [ha]
  have hnor : ¬(a = [] ∨ b = []) := by simp [ha, hb]
  by_cases htz : threshold r = 0
  · have hof : overlapFactor (threshold r) = 0 := by
      rw [htz]; simp [overlapFactor]
    simp only [evaluate, if_neg hnand, if_pos hof]
    rw [jaccardDistance_nonempty a b ha hb]
    rfl
  · have hof : ¬ overlapFactor (threshold r) = 0 := by
      rw [overlapFactor_eq_zero_iff _ ht0]; exact htz
    have hlc : lengthContains a.length b.length (threshold r) :=
      lengthContains_of_sim a b (threshold r) ha hb ht0 hsim
    have hovT : ⌈overlapFactor (threshold r) * ((a.length : ℚ) + (b.length : ℚ))⌉₊ ≤
        interCount a b := (ovT_le_iff a b (threshold r) ha ht0).mpr hsim
    have hm : mergeLoopF cfg.position
        ⌈overlapFactor (threshold r) * ((a.length : ℚ) + (b.length : ℚ))⌉₊
        (a.length + b.length) a b 0 =
        some (0 + interCountF (a.length + b.length) a b) := by
      cases hp : cfg.position
      · exact mergeLoopF_false _ _ a b 0
      · refine mergeLoopF_pos_of_ge _ _ a b 0 ?_
        have : interCountF (a.length + b.length) a b = interCount a b := rfl
        omega
    simp only [evaluate, if_neg hnand, if_neg hof, if_neg hnor,
      if_neg (by simp [hlc] : ¬(cfg.length = true ∧ ¬ lengthContains a.length b.length (threshold r)))]
    rw [hm]
    have hicf : interCountF (a.length + b.length) a b = interCount a b := rfl
    simp only [Nat.zero_add, hicf]
    rw [if_neg (by omega)]
    rfl

/-- Converse: whatever the configuration, an `Accepted` verdict on a
non-empty pair means the similarity reached the threshold and the reported
distance is the exact Jaccard distance. -/
theorem sim_of_evaluate_accept (a b : List ℕ) (r : ℚ) (cfg : FilterConfig) (d : ℚ)
    (ha : a ≠ []) (hb : b ≠ []) (h : evaluate a r cfg b = .Accepted d) :
    threshold r ≤ simQ a b ∧ d = 1 - simQ a b := by
  have ht0 : 0 ≤ threshold r := threshold_nonneg r
  have hnand : ¬(a = [] ∧ b = []) := by simp [ha]
  have hnor : ¬(a = [] ∨ b = []) := by simp [ha, hb]
  by_cases htz : threshold r = 0
  · have hof : overlapFactor (threshold r) = 0 := by
      rw [htz]; simp [overlapFactor]
    simp only [evaluate, if_neg hnand, if_pos hof] at h
    rw [jaccardDistance_nonempty a b ha hb] at h
    simp only [Option.getD_some, Evaluation.Accepted.injEq] at h
    exact ⟨htz ▸ simQ_nonneg a b ha, h.symm⟩
  · have hof : ¬ overlapFactor (threshold r) = 0 := by
      rw [overlapFactor_eq_zero_iff _ ht0]; exact htz
    simp only [evaluate, if_neg hnand, if_neg hof, if_neg hnor] at h
    by_cases hl : cfg.length = true ∧ ¬ lengthContains a.length b.length (threshold r)
    · rw [if_pos hl] at h
      exact absurd h (by simp)
    · rw [if_neg hl] at h
      rcases hml : mergeLoopF cfg.position
          ⌈overlapFactor (threshold r) * ((a.length : ℚ) + (b.length : ℚ))⌉₊
          (a.length + b.length) a b 0 with _ | n
      · rw [hml] at h
        exact absurd h (by simp)
      · rw [hml] at h
        have hn : n = 0 + interCountF (a.length + b.length) a b :=
          mergeLoopF_some _ _ _ a b 0 n hml
        have hicf : interCountF (a.length + b.length) a b = interCount a b := rfl
        rw [hicf] at hn
        simp only at h
        by_cases hlt : n < ⌈overlapFactor (threshold r) * ((a.length : ℚ) + (b.length : ℚ))⌉₊
        · rw [if_pos hlt] at h
          exact absurd h (by simp)
        · rw [if_neg hlt] at h
          simp only [Evaluation.Accepted.injEq] at h
          constructor
          · refine (ovT_le_iff a b (threshold r) ha ht0).mp ?_
            omega
          · rw [← h]
            unfold simQ
            rw [hn]
            norm_num

theorem clamp01_eq_one_sub_threshold (r : ℚ) : clamp01 r = 1 - threshold r := by
  unfold threshold
  ring

/-- Configuration-free characterization of acceptance: a candidate is
accepted exactly when its Jaccard distance is defined and within the
clamped radius, and then the reported distance is that distance. -/
theorem acceptDist_evaluate (a b : List ℕ) (r : ℚ) (cfg : FilterConfig) :
    acceptDist (evaluate a r cfg b) =
      (jaccardDistance a b).bind (fun d => if d ≤ clamp01 r then some d else none) := by
  have ht0 : 0 ≤ threshold r := threshold_nonneg r
  by_cases hand : a = [] ∧ b = []
  · simp only [evaluate, if_pos hand, jaccardDistance, acceptDist, Option.bind_none]
    rfl
  · by_cases hor : a = [] ∨ b = []
    · have hjd : jaccardDistance a b = some 1 := by
        unfold jaccardDistance
        rw [if_neg hand, if_pos hor]
      rw [hjd]
      by_cases htz : threshold r = 0
      · have hof : overlapFactor (threshold r) = 0 := by
          rw [htz]; simp [overlapFactor]
        have hcl : clamp01 r = 1 := by
          rw [clamp01_eq_one_sub_threshold, htz]; norm_num
        simp only [evaluate, if_neg hand, if_pos hof, hjd, Option.getD_some,
          Option.some_bind, acceptDist]
        rw [if_pos (by rw [hcl])]
      · have hof : ¬ overlapFactor (threshold r) = 0 := by
          rw [overlapFactor_eq_zero_iff _ ht0]; exact htz
        have hcl : ¬ (1 : ℚ) ≤ clamp01 r := by
          rw [clamp01_eq_one_sub_threshold]
          intro hcon
          have : threshold r ≤ 0 := by linarith
          exact htz (le_antisymm this ht0)
        simp only [evaluate, if_neg hand, if_neg hof, if_pos hor, Option.some_bind, acceptDist]
        rw [if_neg hcl]
    · push_neg at hor
      obtain ⟨ha, hb⟩ := hor
      rw [jaccardDistance_nonempty a b ha hb, Option.some_bind]
      by_cases hs : threshold r ≤ simQ a b
      · rw [evaluate_accept_of_sim a b r cfg ha hb hs]
        rw [if_pos (by rw [clamp01_eq_one_sub_threshold]; linarith)]
        rfl
      · rw [if_neg (by rw [clamp01_eq_one_sub_threshold]; intro hcon; exact hs (by linarith))]
        rcases hev : evaluate a r cfg b with _ | _ | _ | _ | d
        · rfl
        · rfl
        · rfl
        · rfl
        · exact absurd (sim_of_evaluate_accept a b r cfg d ha hb hev).1 hs

/-! ## The merge intersection count equals the set intersection size -/

theorem interCard_nil_right (a : List ℕ) : interCard a [] = 0 := by
  simp [interCard]

theorem interCount_eq_interCard (a b : List ℕ)
    (ha : List.Sorted (· < ·) a) (hb : List.Sorted (· < ·) b) :
    interCount a b = interCard a b := by
  have H : ∀ (n : ℕ) (a b : List ℕ), a.length + b.length = n →
      List.Sorted (· < ·) a → List.Sorted (· < ·) b → interCount a b = interCard a b := by
    intro n
    induction n using Nat.strong_induction_on with
    | _ n ih =>
      intro a b hn ha hb
      cases a with
      | nil => rw [interCount_nil_left]; simp [interCard]
      | cons x xs =>
        cases b with
        | nil => rw [interCount_nil_right, interCard_nil_right]
        | cons y ys =>
          rw [List.sorted_cons] at ha hb
          rw [interCount_cons]
          rcases eq_or_ne x y with h | h
          · rw [if_pos h,
              ih (xs.length + ys.length) (by simp at hn; omega) xs ys rfl ha.2 hb.2]
            unfold interCard
            rw [List.filter_cons_of_pos (by simp [h])]
            have hcong : xs.filter (fun z => decide (z ∈ y :: ys)) =
                xs.filter (fun z => decide (z ∈ ys)) := by
              apply List.filter_congr
              intro z hz
              have hyz : y < z := h ▸ ha.1 z hz
              have hiff : (z ∈ y :: ys) ↔ (z ∈ ys) := by
                constructor
                · intro hm
                  rcases List.mem_cons.mp hm with heq | h2
                  · exact absurd heq hyz.ne'
                  · exact h2
                · exact fun h2 => List.mem_cons.mpr (Or.inr h2)
              exact decide_eq_decide.mpr hiff
            rw [List.length_cons, hcong]
          · rw [if_neg h]
            rcases lt_or_le x y with h2 | h2
            · rw [if_pos h2,
                ih (xs.length + (y :: ys).length) (by simp at hn ⊢; omega) xs (y :: ys) rfl
                  ha.2 (List.sorted_cons.mpr hb)]
              unfold interCard
              rw [List.filter_cons_of_neg]
              simp only [decide_eq_true_eq, List.mem_cons]
              push_neg
              exact ⟨h, fun hmem => absurd (hb.1 x hmem) (not_lt.mpr h2.le)⟩
            · have h3 : y < x := lt_of_le_of_ne h2 (Ne.symm h)
              rw [if_neg (not_lt.mpr h2),
                ih ((x :: xs).length + ys.length) (by simp at hn ⊢; omega) (x :: xs) ys rfl
                  (List.sorted_cons.mpr ha) hb.2]
              unfold interCard
              apply congrArg
              apply List.filter_congr
              intro z hz
              have hyz : y < z := by
                rcases List.mem_cons.mp hz with rfl | hz2
                · exact h3
                · exact lt_trans h3 (ha.1 z hz2)
              have hiff : (z ∈ y :: ys) ↔ (z ∈ ys) := by
                constructor
                · intro hm
                  rcases List.mem_cons.mp hm with heq | h2
                  · exact absurd heq hyz.ne'
                  · exact h2
                · exact fun h2 => List.mem_cons.mpr (Or.inr h2)
              exact decide_eq_decide.mpr hiff.symm
  exact H (a.length + b.length) a b rfl ha hb

theorem unionCard_eq (a b : List ℕ)
    (ha : List.Sorted (· < ·) a) (hb : List.Sorted (· < ·) b) :
    unionCard a b = a.length + b.length - interCount a b := by
  unfold unionCard
  have hsplit := List.length_eq_length_filter_add (l := b) (fun z => decide (z ∈ a))
  have h1 : interCount a b = (b.filter (fun z => decide (z ∈ a))).length := by
    rw [interCount_comm, interCount_eq_interCard b a hb ha]
    rfl
  have h2 : (b.filter (fun z => !decide (z ∈ a))).length =
      (b.filter (fun z => decide (z ∉ a))).length := by
    apply congrArg
    apply List.filter_congr
    intro z _
    simp
  have hle : interCount a b ≤ b.length := interCount_le_right a b
  omega

theorem jaccardSim_eq_simQ (a b : List ℕ)
    (ha : List.Sorted (· < ·) a) (hb : List.Sorted (· < ·) b) :
    jaccardSim a b = simQ a b := by
  unfold jaccardSim simQ
  rw [interCount_eq_interCard a b ha hb, unionCard_eq a b ha hb,
    interCount_eq_interCard a b ha hb]

/-! ## Helper equations for concrete evaluation -/

theorem clamp01_ite (r : ℚ) : clamp01 r = if r ≤ 0 then 0 else if r ≤ 1 then r else 1 := by
  unfold clamp01
  rcases le_or_lt r 0 with h | h
  · rw [max_eq_right h, if_pos h, min_eq_left (by norm_num : (0:ℚ) ≤ 1)]
  · rw [max_eq_left h.le, if_neg (not_le.mpr h)]
    rcases le_or_lt r 1 with h1 | h1
    · rw [min_eq_left h1, if_pos h1]
    · rw [min_eq_right h1.le, if_neg (not_le.mpr h1)]

/-! ## Claims -/

/-- C4: FilterConfig noninterference.  For every record collection,
universe, query and radius, `LinearScan::range_query` returns the same
answer list (hence the same set of `(id, dist)` pairs) under any two
filter configurations: the configuration influences only the internal
`Evaluation` classification, never the accepted results. -/
theorem C4_filterConfig_noninterference (records : List RecordM) (u : ℕ)
    (cfg1 cfg2 : FilterConfig) (q : List ℕ) (r : ℚ) :
    rangeQueryLS records u cfg1 q r = rangeQueryLS records u cfg2 q r := by
  unfold rangeQueryLS
  simp only [acceptDist_evaluate]

/-- C2: filter soundness (no false rejections).  For non-empty ordered
sets `A`, `B` whose Jaccard similarity reaches the threshold
`t = 1 − clamp(r, 0, 1)`, `Jaccard::new(A, r, cfg).evaluate(B)` returns
`Accepted (1 − J(A,B))` (the exact distance in this rational model) for
every filter configuration — never `LengthFiltered`, `PositionFiltered`
or `Verified`. -/
theorem C2_filter_soundness (a b : List ℕ) (r : ℚ) (cfg : FilterConfig)
    (ha : List.Sorted (· < ·) a) (hb : List.Sorted (· < ·) b)
    (hna : a ≠ []) (hnb : b ≠ [])
    (hsim : threshold r ≤ jaccardSim a b) :
    evaluate a r cfg b = .Accepted (1 - jaccardSim a b) := by
  rw [jaccardSim_eq_simQ a b ha hb] at hsim ⊢
  exact evaluate_accept_of_sim a b r cfg hna hnb hsim

/-- Witness for C2 at `A = [1,2]`, `B = [2,3]`, radius `9/10`,
both filters on: `J = 1/3 ≥ 1/10 = t`, so the pair is accepted with
distance `2/3`. -/
theorem C2_witness :
    threshold (9/10) ≤ jaccardSim [1,2] [2,3] ∧
    evaluate [1,2] (9/10) ⟨true, true⟩ [2,3] = .Accepted (1 - jaccardSim [1,2] [2,3]) := by
  have h : threshold (9/10) ≤ jaccardSim [1,2] [2,3] := by
    norm_num [threshold, clamp01_ite, jaccardSim, interCard, unionCard]
  exact ⟨h, C2_filter_soundness [1,2] [2,3] (9/10) ⟨true, true⟩
    (by decide) (by decide) (by decide) (by decide) h⟩

/-- C5: radius-1 bypass.  For every base set, candidate and filter
configuration, at any radius clamping to 1 the evaluator returns
`Undefined` on a both-empty pair and otherwise `Accepted d` where `d` is
the defined Jaccard distance of the pair; no filtered or `Verified`
outcome is possible. -/
theorem C5_radius_one_bypass (a b : List ℕ) (cfg : FilterConfig) (r : ℚ) (h : 1 ≤ r) :
    (a = [] ∧ b = [] → evaluate a r cfg b = .Undefined) ∧
    (¬(a = [] ∧ b = []) → ∃ d, jaccardDistance a b = some d ∧
      evaluate a r cfg b = .Accepted d) := by
  have htz : threshold r = 0 := (threshold_eq_zero_iff r).mpr h
  have hof : overlapFactor (threshold r) = 0 := by
    rw [htz]; simp [overlapFactor]
  constructor
  · intro hand
    simp only [evaluate, if_pos hand]
  · intro hand
    have hd : ∃ d, jaccardDistance a b = some d := by
      unfold jaccardDistance
      rw [if_neg hand]
      by_cases hor : a = [] ∨ b = []
      · rw [if_pos hor]; exact ⟨1, rfl⟩
      · rw [if_neg hor]; exact ⟨_, rfl⟩
    obtain ⟨d, hd⟩ := hd
    refine ⟨d, hd, ?_⟩
    simp only [evaluate, if_neg hand, if_pos hof, hd, Option.getD_some]

/-- Witness for C5 at `A = [1]`, `B = [2]`, radius `1`: the distance is
defined (`1`) and the evaluator accepts it. -/
theorem C5_witness :
    (1 : ℚ) ≤ 1 ∧
    (¬(([1] : List ℕ) = [] ∧ ([2] : List ℕ) = []) → ∃ d, jaccardDistance [1] [2] = some d ∧
      evaluate [1] 1 ⟨true, true⟩ [2] = .Accepted d) :=
  ⟨le_refl 1, (C5_radius_one_bypass [1] [2] ⟨true, true⟩ 1 (le_refl 1)).2⟩

/-- C6: the distance function.  On sorted duplicate-free lists,
`Jaccard::distance` (a two-pointer merge) returns `None` for a both-empty
pair, `Some 1` when exactly one side is empty, and otherwise
`Some (1 − |A ∩ B| / |A ∪ B|)` with the set-theoretic intersection and
union sizes. -/
theorem C6_distance_spec (a b : List ℕ)
    (ha : List.Sorted (· < ·) a) (hb : List.Sorted (· < ·) b) :
    jaccardDistance a b =
      if a = [] ∧ b = [] then none
      else if a = [] ∨ b = [] then some 1
      else some (1 - (interCard a b : ℚ) / (unionCard a b : ℚ)) := by
  by_cases hand : a = [] ∧ b = []
  · rw [if_pos hand]
    unfold jaccardDistance
    rw [if_pos hand]
  · rw [if_neg hand]
    by_cases hor : a = [] ∨ b = []
    · rw [if_pos hor]
      unfold jaccardDistance
      rw [if_neg hand, if_pos hor]
    · rw [if_neg hor]
      push_neg at hor
      rw [jaccardDistance_nonempty a b hor.1 hor.2]
      have : jaccardSim a b = simQ a b := jaccardSim_eq_simQ a b ha hb
      unfold jaccardSim at this
      rw [← this]

/-- Witness for C6 at `A = [1,2,3]`, `B = [2,3,4]`:
`|A ∩ B| = 2`, `|A ∪ B| = 4`, distance `1/2`. -/
theorem C6_witness :
    jaccardDistance [1,2,3] [2,3,4] =
      if ([1,2,3] : List ℕ) = [] ∧ ([2,3,4] : List ℕ) = [] then none
      else if ([1,2,3] : List ℕ) = [] ∨ ([2,3,4] : List ℕ) = [] then some 1
      else some (1 - (interCard [1,2,3] [2,3,4] : ℚ) / (unionCard [1,2,3] [2,3,4] : ℚ)) :=
  C6_distance_spec [1,2,3] [2,3,4] (by decide) (by decide)

/-- C9: `OrderedSet::from_sorted` fails exactly on inputs with a
non-strictly-increasing adjacent pair (the negation of
`List.Chain' (· < ·)`), and on success returns exactly the input
elements in order. -/
theorem C9_from_sorted_spec (xs : List ℕ) :
    fromSorted xs = if List.Chain' (· < ·) xs then some xs else none := by
  have H : ∀ (ys : List ℕ) (last : ℕ),
      fromSortedGo last ys = if List.Chain' (· < ·) (last :: ys) then some ys else none := by
    intro ys
    induction ys with
    | nil =>
      intro last
      rw [if_pos (by simp)]
      rfl
    | cons y ys ih =>
      intro last
      show (if y ≤ last then none
        else (fromSortedGo y ys).map (y :: ·)) = _
      rcases le_or_lt y last with h | h
      · rw [if_pos h, if_neg]
        rw [List.chain'_cons]
        push_neg
        intro hlt
        exact absurd hlt (not_lt.mpr h)
      · rw [if_neg (not_le.mpr h), ih y]
        by_cases hc : List.Chain' (· < ·) (y :: ys)
        · rw [if_pos hc, if_pos (List.chain'_cons.mpr ⟨h, hc⟩)]
          rfl
        · rw [if_neg hc, if_neg]
          · rfl
          · rw [List.chain'_cons]
            push_neg
            intro _
            exact hc
  cases xs with
  | nil =>
    rw [if_pos (by simp)]
    rfl
  | cons x xs =>
    show (fromSortedGo x xs).map (x :: ·) = _
    rw [H xs x]
    by_cases hc : List.Chain' (· < ·) (x :: xs)
    · rw [if_pos hc, if_pos hc]
      rfl
    · rw [if_neg hc, if_neg hc]
      rfl

/-- Concrete value of a ceiling appearing in the end-to-end scenarios. -/
theorem qceil_a : (⌈(3/2 : ℚ)⌉₊ : ℕ) = 2 := by rw [Nat.ceil_eq_iff] <;> norm_num

theorem qceil_b : (⌈(5/3 : ℚ)⌉₊ : ℕ) = 2 := by rw [Nat.ceil_eq_iff] <;> norm_num

theorem qceil_c : (⌈(2 : ℚ)⌉₊ : ℕ) = 2 := by rw [Nat.ceil_eq_iff] <;> norm_num

theorem qceil_d : (⌈(7/3 : ℚ)⌉₊ : ℕ) = 3 := by rw [Nat.ceil_eq_iff] <;> norm_num

theorem qceil_e : (⌈(8/3 : ℚ)⌉₊ : ℕ) = 3 := by rw [Nat.ceil_eq_iff] <;> norm_num

theorem qceil_f : (⌈(3 : ℚ)⌉₊ : ℕ) = 3 := by rw [Nat.ceil_eq_iff] <;> norm_num

theorem qceil_g : (⌈(4/3 : ℚ)⌉₊ : ℕ) = 2 := by rw [Nat.ceil_eq_iff] <;> norm_num

theorem qfloor_a : (⌊(3/2 : ℚ)⌋₊ : ℕ) = 1 := by rw [Nat.floor_eq_iff] <;> norm_num

theorem qfloor_b : (⌊(5/3 : ℚ)⌋₊ : ℕ) = 1 := by rw [Nat.floor_eq_iff] <;> norm_num

theorem qfloor_c : (⌊(2 : ℚ)⌋₊ : ℕ) = 2 := by rw [Nat.floor_eq_iff] <;> norm_num

theorem qfloor_d : (⌊(6 : ℚ)⌋₊ : ℕ) = 6 := by rw [Nat.floor_eq_iff] <;> norm_num

theorem qfloor_e : (⌊(4/3 : ℚ)⌋₊ : ℕ) = 1 := by rw [Nat.floor_eq_iff] <;> norm_num

theorem qfloor_f : (⌊(2/3 : ℚ)⌋₊ : ℕ) = 0 := by rw [Nat.floor_eq_iff] <;> norm_num

theorem qfloor_g : (⌊(1/3 : ℚ)⌋₊ : ℕ) = 0 := by rw [Nat.floor_eq_iff] <;> norm_num

theorem qfloor_h : (⌊(1 : ℚ)⌋₊ : ℕ) = 1 := Nat.floor_one

set_option maxHeartbeats 2000000 in
/-- C8: the literal end-to-end range-query scenario of the specification.
Records `(0, [1,2,3])`, `(1, [1,2,3,4])`, `(2, [2,3,4])` in universe 10
with both filters on; query `[1,2,3]` at radius `1/2`.  Both the linear
scan and the prefix index built at radius `1/2` return
`[(0, 0), (1, 1/4), (2, 1/2)]` in that order. -/
theorem C8_end_to_end :
    rangeQueryLS [⟨0, [1,2,3]⟩, ⟨1, [1,2,3,4]⟩, ⟨2, [2,3,4]⟩] 10 ⟨true, true⟩ [1,2,3] (1/2) =
      [⟨0, 0⟩, ⟨1, 1/4⟩, ⟨2, 1/2⟩] ∧
    rangeQueryPI [⟨0, [1,2,3]⟩, ⟨1, [1,2,3,4]⟩, ⟨2, [2,3,4]⟩] 10 (1/2) [1,2,3] =
      [⟨0, 0⟩, ⟨1, 1/4⟩, ⟨2, 1/2⟩] := by
  constructor <;>
    norm_num +decide [rangeQueryLS, rangeQueryPI, mapRecords, mappingTable, sortedElemFreqs,
      freqOf, freqLe, List.insertionSort, List.orderedInsert, List.enum, List.enumFrom,
      List.range, List.range.loop, applyMapping, fromUnsorted, dedupAdj, acceptDist,
      List.filterMap_cons, List.filterMap_nil, postings, dedupFirst, dedupFirstAux,
      indexPrefixLen, queryPrefixLen, cfgTT,
      evaluate, threshold, clamp01_ite, overlapFactor, lengthContains, lengthLower,
      lengthUpper, mergeLoopF, interCount, interCountF, jaccardDistance, answerLe,
      qceil_a, qceil_b, qceil_c, qceil_d, qceil_e, qceil_f, qceil_g,
      qfloor_a, qfloor_b, qfloor_c, qfloor_d, qfloor_e, qfloor_f, qfloor_g, qfloor_h]

set_option maxHeartbeats 4000000 in
/-- C1: the linear scan and the prefix index do NOT return the same
answers on every database.  On the database
`(0, [0..5]), (1, [1..5]), (2, [2..5]), (3, [3,4,5]), (4, [4,5]), (5, [5])`
in universe 10 at radius `1/2` with query `[3,4,5]`, the linear scan
accepts records 0 (distance `1/2`) and 1 (distance `2/5`), both within
the radius, but the prefix index misses them: these records are longer
than the query, and the indexed prefix `⌊L·(1−t)/(1+t)⌋ + 1` of
`InvertedIndex::index_prefix_len` is too short for such records, so no
element of the query prefix hits their posting lists. -/
theorem C1_prefix_index_incomplete :
    rangeQueryLS [⟨0, [0,1,2,3,4,5]⟩, ⟨1, [1,2,3,4,5]⟩, ⟨2, [2,3,4,5]⟩, ⟨3, [3,4,5]⟩,
        ⟨4, [4,5]⟩, ⟨5, [5]⟩] 10 ⟨false, false⟩ [3,4,5] (1/2) =
      [⟨3, 0⟩, ⟨2, 1/4⟩, ⟨4, 1/3⟩, ⟨1, 2/5⟩, ⟨0, 1/2⟩] ∧
    rangeQueryPI [⟨0, [0,1,2,3,4,5]⟩, ⟨1, [1,2,3,4,5]⟩, ⟨2, [2,3,4,5]⟩, ⟨3, [3,4,5]⟩,
        ⟨4, [4,5]⟩, ⟨5, [5]⟩] 10 (1/2) [3,4,5] =
      [⟨3, 0⟩, ⟨2, 1/4⟩, ⟨4, 1/3⟩] := by
  constructor <;>
    norm_num +decide [rangeQueryLS, rangeQueryPI, mapRecords, mappingTable, sortedElemFreqs,
      freqOf, freqLe, List.insertionSort, List.orderedInsert, List.enum, List.enumFrom,
      List.range, List.range.loop, applyMapping, fromUnsorted, dedupAdj, acceptDist,
      List.filterMap_cons, List.filterMap_nil, postings, dedupFirst, dedupFirstAux,
      indexPrefixLen, queryPrefixLen, cfgTT,
      evaluate, threshold, clamp01_ite, overlapFactor, lengthContains, lengthLower,
      lengthUpper, mergeLoopF, interCount, interCountF, jaccardDistance, answerLe,
      qceil_a, qceil_b, qceil_c, qceil_d, qceil_e, qceil_f, qceil_g,
      qfloor_a, qfloor_b, qfloor_c, qfloor_d, qfloor_e, qfloor_f, qfloor_g, qfloor_h]

/-! ## The mapping table is a permutation of the universe -/

/-- The element column of the sorted pair list. -/
def sortedElems (records : List RecordM) (u : ℕ) : List ℕ :=
  (sortedElemFreqs records u).map Prod.fst

theorem sortedElems_perm_range (records : List RecordM) (u : ℕ) :
    (sortedElems records u).Perm (List.range u) := by
  unfold sortedElems sortedElemFreqs
  have h1 := (List.perm_insertionSort freqLe
    ((List.range u).map (fun e => (e, freqOf records e)))).map Prod.fst
  simpa [List.map_map, Function.comp_def] using h1

theorem sortedElems_nodup (records : List RecordM) (u : ℕ) :
    (sortedElems records u).Nodup :=
  (sortedElems_perm_range records u).nodup_iff.mpr (List.nodup_range u)

theorem sortedElems_mem_lt (records : List RecordM) (u : ℕ) (e : ℕ)
    (h : e ∈ sortedElems records u) : e < u :=
  List.mem_range.mp ((sortedElems_perm_range records u).subset h)

theorem sortedElems_mem_of_lt (records : List RecordM) (u : ℕ) (e : ℕ)
    (h : e < u) : e ∈ sortedElems records u :=
  (sortedElems_perm_range records u).mem_iff.mpr (List.mem_range.mpr h)

theorem setGetD_eq : ∀ (m : List ℕ) (i v : ℕ), i < m.length → (m.set i v).getD i 0 = v := by
  intro m
  induction m with
  | nil => intro i v h; simp at h
  | cons a l ih =>
    intro i v h
    cases i with
    | zero => rfl
    | succ j =>
      simp only [List.set_cons_succ, List.getD_cons_succ]
      exact ih j v (by simp at h; omega)

theorem setGetD_ne : ∀ (m : List ℕ) (i j v : ℕ), i ≠ j → (m.set i v).getD j 0 = m.getD j 0 := by
  intro m
  induction m with
  | nil => intro i j v _; simp [List.set_nil]
  | cons a l ih =>
    intro i j v hne
    cases i with
    | zero =>
      cases j with
      | zero => exact absurd rfl hne
      | succ k => rfl
    | succ i2 =>
      cases j with
      | zero => rfl
      | succ k =>
        simp only [List.set_cons_succ, List.getD_cons_succ]
        exact ih i2 k v (by omega)

theorem scatter_length : ∀ (ps : List (ℕ × (ℕ × ℕ))) (m : List ℕ),
    (ps.foldl (fun m p => m.set p.2.1 p.1) m).length = m.length := by
  intro ps
  induction ps with
  | nil => intro m; rfl
  | cons q ps ih =>
    intro m
    rw [List.foldl_cons, ih]
    exact List.length_set ..

theorem scatter_unwritten : ∀ (ps : List (ℕ × (ℕ × ℕ))) (m : List ℕ) (e : ℕ),
    (∀ p ∈ ps, p.2.1 ≠ e) →
    (ps.foldl (fun m p => m.set p.2.1 p.1) m).getD e 0 = m.getD e 0 := by
  intro ps
  induction ps with
  | nil => intro m e _; rfl
  | cons q ps ih =>
    intro m e h
    rw [List.foldl_cons, ih _ e (fun p hp => h p (List.mem_cons_of_mem q hp))]
    exact setGetD_ne m q.2.1 e q.1 (h q (List.mem_cons_self q ps))

theorem scatter_written : ∀ (ps : List (ℕ × (ℕ × ℕ))) (m : List ℕ),
    (ps.map (fun p => p.2.1)).Nodup →
    ∀ p ∈ ps, p.2.1 < m.length →
    (ps.foldl (fun m p => m.set p.2.1 p.1) m).getD p.2.1 0 = p.1 := by
  intro ps
  induction ps with
  | nil => intro m _ p hp; simp at hp
  | cons q ps ih =>
    intro m hnd p hp hlt
    rw [List.map_cons, List.nodup_cons] at hnd
    rcases List.mem_cons.mp hp with rfl | hp2
    · rw [List.foldl_cons,
        scatter_unwritten ps _ p.2.1 (fun p2 hp2 => by
          intro heq
          exact hnd.1 (heq ▸ List.mem_map_of_mem (fun p => p.2.1) hp2))]
      exact setGetD_eq m p.2.1 p.1 hlt
    · rw [List.foldl_cons]
      exact ih _ hnd.2 p hp2 (by rw [List.length_set]; exact hlt)

theorem mappingTable_length (records : List RecordM) (u : ℕ) :
    (mappingTable records u).length = u := by
  unfold mappingTable
  rw [scatter_length]
  exact List.length_replicate ..

theorem enum_snd_fst (records : List RecordM) (u : ℕ) :
    (((sortedElemFreqs records u).enum).map (fun p => p.2.1)) = sortedElems records u := by
  unfold sortedElems
  have h : ((sortedElemFreqs records u).enum).map (fun p => p.2.1) =
      (((sortedElemFreqs records u).enum).map Prod.snd).map Prod.fst := by
    rw [List.map_map]
    rfl
  rw [h, List.enum_map_snd]

/-- Looking up an element of the universe in the built table returns its
rank in the frequency-sorted order; distinct elements receive distinct
ranks, so the table is injective on the universe. -/
theorem mappingTable_inj (records : List RecordM) (u : ℕ) (e1 e2 : ℕ)
    (h1 : e1 < u) (h2 : e2 < u)
    (heq : (mappingTable records u).getD e1 0 = (mappingTable records u).getD e2 0) :
    e1 = e2 := by
  have hnd : (((sortedElemFreqs records u).enum).map (fun p => p.2.1)).Nodup := by
    rw [enum_snd_fst]
    exact sortedElems_nodup records u
  have hmem : ∀ e, e < u → ∃ k f, (k, (e, f)) ∈ (sortedElemFreqs records u).enum := by
    intro e he
    have hmem2 : e ∈ sortedElems records u := sortedElems_mem_of_lt records u e he
    unfold sortedElems at hmem2
    obtain ⟨pr, hpr, hfst⟩ := List.mem_map.mp hmem2
    obtain ⟨k, hklt, hk⟩ := List.mem_iff_getElem.mp hpr
    refine ⟨k, pr.2, ?_⟩
    have hsome : (sortedElemFreqs records u)[k]? = some pr := by
      rw [List.getElem?_eq_getElem hklt, hk]
    have hpair : (k, pr) ∈ (sortedElemFreqs records u).enum :=
      List.mk_mem_enum_iff_getElem?.mpr hsome
    have hpr2 : (e, pr.2) = pr := by
      rw [← hfst]
    rw [← hpr2] at hpair
    exact hpair
  obtain ⟨k1, f1, hk1⟩ := hmem e1 h1
  obtain ⟨k2, f2, hk2⟩ := hmem e2 h2
  have hw1 : (mappingTable records u).getD e1 0 = k1 := by
    unfold mappingTable
    exact scatter_written _ _ hnd (k1, (e1, f1)) hk1
      (by rw [List.length_replicate]; exact h1)
  have hw2 : (mappingTable records u).getD e2 0 = k2 := by
    unfold mappingTable
    exact scatter_written _ _ hnd (k2, (e2, f2)) hk2
      (by rw [List.length_replicate]; exact h2)
  have hk : k1 = k2 := by omega
  subst hk
  have g1 := List.mk_mem_enum_iff_getElem?.mp hk1
  have g2 := List.mk_mem_enum_iff_getElem?.mp hk2
  rw [g1] at g2
  exact congrArg Prod.fst (Option.some.inj g2)

theorem dedupAdj_of_nodup : ∀ (l : List ℕ), l.Nodup → dedupAdj l = l := by
  intro l
  induction l with
  | nil => intro _; rfl
  | cons x xs ih =>
    intro hnd
    cases xs with
    | nil => rfl
    | cons y ys =>
      rw [List.nodup_cons] at hnd
      have hxy : x ≠ y := fun h => hnd.1 (h ▸ List.mem_cons_self y ys)
      show (if x = y then dedupAdj (y :: ys) else x :: dedupAdj (y :: ys)) = _
      rw [if_neg hxy, ih hnd.2]

/-- C7: `Mapping::apply` preserves cardinality.  For a universe `u > 0`
and a strictly sorted set `S` whose elements lie in `[0, u)`, applying
the table built by `Mapping::from_records` yields a set of the same
size (the table is a permutation of `[0, u)`, hence injective on `S`). -/
theorem C7_apply_preserves_card (records : List RecordM) (u : ℕ) (s : List ℕ)
    (hu : 0 < u) (hs : List.Sorted (· < ·) s) (hlt : ∀ e ∈ s, e < u) :
    (applyMapping (mappingTable records u) s).length = s.length := by
  unfold applyMapping fromUnsorted
  have hnds : s.Nodup := hs.imp (fun h => ne_of_lt h)
  have hndm : (s.map (fun e => (mappingTable records u).getD e 0)).Nodup := by
    refine List.Nodup.map_on ?_ hnds
    intro x hx y hy hxy
    exact mappingTable_inj records u x y (hlt x hx) (hlt y hy) hxy
  have hnd2 : (List.insertionSort (· ≤ ·)
      (s.map (fun e => (mappingTable records u).getD e 0))).Nodup :=
    (List.perm_insertionSort _ _).nodup_iff.mpr hndm
  rw [dedupAdj_of_nodup _ hnd2, (List.perm_insertionSort _ _).length_eq, List.length_map]

/-- Witness for C7: the test mapping of `mapping.rs` (records
`(0, [0,1,3])`, `(1, [0,3])`, `(2, [3])`, universe 4) applied to the
two-element set `[2, 3]` yields a two-element set. -/
theorem C7_witness :
    0 < 4 ∧
    (applyMapping (mappingTable [⟨0, [0,1,3]⟩, ⟨1, [0,3]⟩, ⟨2, [3]⟩] 4) [2,3]).length =
      ([2,3] : List ℕ).length :=
  ⟨by decide, C7_apply_preserves_card [⟨0, [0,1,3]⟩, ⟨1, [0,3]⟩, ⟨2, [3]⟩] 4 [2,3]
    (by decide) (by decide) (by decide)⟩

/-! ## Top-k: the k = 0 panic -/

theorem dedupAdj_ne_nil : ∀ (l : List ℕ), l ≠ [] → dedupAdj l ≠ [] := by
  intro l
  induction l with
  | nil => intro h; exact absurd rfl h
  | cons x xs ih =>
    intro _
    cases xs with
    | nil => simp [dedupAdj]
    | cons y ys =>
      show (if x = y then dedupAdj (y :: ys) else x :: dedupAdj (y :: ys)) ≠ []
      rcases eq_or_ne x y with h | h
      · rw [if_pos h]
        exact ih (by simp)
      · rw [if_neg h]
        simp

theorem applyMapping_eq_nil_iff (table : List ℕ) (s : List ℕ) :
    applyMapping table s = [] ↔ s = [] := by
  unfold applyMapping fromUnsorted
  constructor
  · intro h
    by_contra hne
    have h1 : s.map (fun e => table.getD e 0) ≠ [] := by
      intro hcon
      exact hne (List.map_eq_nil_iff.mp hcon)
    have h2 : List.insertionSort (· ≤ ·) (s.map (fun e => table.getD e 0)) ≠ [] := by
      intro hcon
      have hp := (List.perm_insertionSort (· ≤ ·) (s.map (fun e => table.getD e 0))).length_eq
      rw [hcon] at hp
      simp only [List.length_nil] at hp
      exact h1 (List.eq_nil_of_length_eq_zero hp.symm)
    exact dedupAdj_ne_nil _ h2 h
  · intro h
    subst h
    rfl

/-- At the initial top-k radius 1, any pair that is not both-empty is
accepted. -/
theorem evaluate_one_accept (a b : List ℕ) (cfg : FilterConfig)
    (hne : ¬(a = [] ∧ b = [])) : ∃ d, evaluate a 1 cfg b = .Accepted d := by
  have htz : threshold 1 = 0 := (threshold_eq_zero_iff 1).mpr le_rfl
  have hof : overlapFactor (threshold 1) = 0 := by
    rw [htz]; simp [overlapFactor]
  exact ⟨(jaccardDistance a b).getD 1, by simp only [evaluate, if_neg hne, if_pos hof]⟩

theorem topkStep_zero (cfg : FilterConfig) (qm : List ℕ) (rec : RecordM) :
    topkStep cfg qm 0 ⟨[], 1⟩ rec =
      if qm = [] ∧ rec.set = [] then some ⟨[], 1⟩ else none := by
  by_cases h : qm = [] ∧ rec.set = []
  · rw [if_pos h]
    unfold topkStep
    have : evaluate qm (1 : ℚ) cfg rec.set = .Undefined := by
      simp only [evaluate, if_pos h]
    rw [this]
  · rw [if_neg h]
    obtain ⟨d, hd⟩ := evaluate_one_accept qm rec.set cfg h
    unfold topkStep
    rw [hd]
    simp

theorem topk_fold_zero (cfg : FilterConfig) (qm : List ℕ) :
    ∀ (rl : List RecordM), (∃ rec ∈ rl, ¬(qm = [] ∧ rec.set = [])) →
      rl.foldlM (fun st rec => topkStep cfg qm 0 st rec) (⟨[], 1⟩ : TopkState) = none := by
  intro rl
  induction rl with
  | nil => rintro ⟨rec, hmem, _⟩; simp at hmem
  | cons r rs ih =>
    rintro ⟨rec, hmem, hne⟩
    rw [List.foldlM_cons, topkStep_zero cfg qm r]
    by_cases hr : qm = [] ∧ r.set = []
    · rw [if_pos hr]
      show rs.foldlM (fun st rec => topkStep cfg qm 0 st rec) (⟨[], 1⟩ : TopkState) = none
      rcases List.mem_cons.mp hmem with rfl | hmem2
      · exact absurd hr hne
      · exact ih ⟨rec, hmem2, hne⟩
    · rw [if_neg hr]
      rfl

/-- C10: `topk_query(query, 0)` panics (modelled as `none`, via the
`heap.peek().unwrap()` on the empty capacity-0 heap) whenever some record
does not form a both-empty pair with the query — that is, whenever some
record is accepted by the radius-1 evaluator.  Only `k ≥ 1` (or a
database whose every record pairs both-empty with the query) avoids the
panic. -/
theorem C10_topk_zero_panics (records : List RecordM) (u : ℕ) (cfg : FilterConfig)
    (q : List ℕ) (h : ∃ rec ∈ records, ¬(q = [] ∧ rec.set = [])) :
    topkQuery records u cfg q 0 = none := by
  simp only [topkQuery]
  rw [topk_fold_zero]
  · rfl
  · obtain ⟨rec, hmem, hne⟩ := h
    refine ⟨⟨rec.id, applyMapping (mappingTable records u) rec.set⟩, ?_, ?_⟩
    · unfold mapRecords
      exact List.mem_map_of_mem _ hmem
    · intro hcon
      refine hne ⟨?_, ?_⟩
      · by_contra hq
        have : applyMapping (mappingTable records u) q ≠ [] := by
          rw [ne_eq, applyMapping_eq_nil_iff]
          exact hq
        exact this hcon.1
      · exact (applyMapping_eq_nil_iff _ _).mp hcon.2

/-- Witness for C10: one record `(0, [0])` in universe 1 and the empty
query: the single accepted record trips the unwrap and `topk_query(q, 0)`
panics. -/
theorem C10_witness :
    (∃ rec ∈ [(⟨0, [0]⟩ : RecordM)], ¬(([] : List ℕ) = [] ∧ rec.set = [])) ∧
    topkQuery [⟨0, [0]⟩] 1 ⟨false, false⟩ [] 0 = none := by
  have h : ∃ rec ∈ [(⟨0, [0]⟩ : RecordM)], ¬(([] : List ℕ) = [] ∧ rec.set = []) :=
    ⟨⟨0, [0]⟩, List.mem_cons_self _ _, by simp⟩
  exact ⟨h, C10_topk_zero_panics [⟨0, [0]⟩] 1 ⟨false, false⟩ [] h⟩

/-! ## Top-k: heap order infrastructure -/

/-- The max-heap order: `x` at least as large as `y` in the `Answer`
order. -/
def heapGe (x y : Answer) : Prop := answerLe y x

theorem answerLe_total (x y : Answer) : answerLe x y ∨ answerLe y x := by
  unfold answerLe
  rcases lt_trichotomy x.dist y.dist with h | h | h
  · exact Or.inl (Or.inl h)
  · rcases le_total x.id y.id with h2 | h2
    · exact Or.inl (Or.inr ⟨h, h2⟩)
    · exact Or.inr (Or.inr ⟨h.symm, h2⟩)
  · exact Or.inr (Or.inl h)

theorem answerLe_trans (x y z : Answer) (h1 : answerLe x y) (h2 : answerLe y z) :
    answerLe x z := by
  unfold answerLe at h1 h2 ⊢
  rcases h1 with h1 | ⟨h1, h1b⟩
  · rcases h2 with h2 | ⟨h2, _⟩
    · exact Or.inl (lt_trans h1 h2)
    · exact Or.inl (h2 ▸ h1)
  · rcases h2 with h2 | ⟨h2, h2b⟩
    · exact Or.inl (h1 ▸ h2)
    · exact Or.inr ⟨h1.trans h2, h1b.trans h2b⟩

theorem answerLe_dist_le (x y : Answer) (h : answerLe x y) : x.dist ≤ y.dist := by
  unfold answerLe at h
  rcases h with h | ⟨h, _⟩
  · exact h.le
  · exact h.le

theorem heapPush_perm (x : Answer) : ∀ (l : List Answer), (heapPush x l).Perm (x :: l) := by
  intro l
  induction l with
  | nil => exact List.Perm.refl _
  | cons y ys ih =>
    show (if answerLe x y then y :: heapPush x ys else x :: y :: ys).Perm (x :: y :: ys)
    rcases Classical.em (answerLe x y) with h | h
    · rw [if_pos h]
      exact (ih.cons y).trans (List.Perm.swap x y ys)
    · rw [if_neg h]

theorem heapPush_length (x : Answer) (l : List Answer) :
    (heapPush x l).length = l.length + 1 := by
  rw [(heapPush_perm x l).length_eq, List.length_cons]

theorem heapPush_sorted (x : Answer) : ∀ (l : List Answer),
    List.Sorted heapGe l → List.Sorted heapGe (heapPush x l) := by
  intro l
  induction l with
  | nil => intro _; simp [heapPush, List.sorted_singleton]
  | cons y ys ih =>
    intro hs
    rw [List.sorted_cons] at hs
    show List.Sorted heapGe (if answerLe x y then y :: heapPush x ys else x :: y :: ys)
    rcases Classical.em (answerLe x y) with h | h
    · rw [if_pos h]
      rw [List.sorted_cons]
      refine ⟨?_, ih hs.2⟩
      intro b hb
      have : b ∈ x :: ys := (heapPush_perm x ys).subset hb
      rcases List.mem_cons.mp this with rfl | hb2
      · exact h
      · exact hs.1 b hb2
    · rw [if_neg h]
      rw [List.sorted_cons]
      refine ⟨?_, List.sorted_cons.mpr hs⟩
      intro b hb
      have hxy : answerLe y x := (answerLe_total x y).resolve_left h
      rcases List.mem_cons.mp hb with rfl | hb2
      · exact hxy
      · exact answerLe_trans b y x (hs.1 b hb2) hxy

theorem sorted_head_ge (top : Answer) (l : List Answer)
    (h : List.Sorted heapGe (top :: l)) : ∀ b ∈ l, b.dist ≤ top.dist := by
  rw [List.sorted_cons] at h
  intro b hb
  exact answerLe_dist_le b top (h.1 b hb)

/-- The reversed heap, projected to distances, is sorted ascending. -/
theorem heap_reverse_dist_sorted (l : List Answer) (h : List.Sorted heapGe l) :
    List.Sorted (· ≤ ·) (l.reverse.map Answer.dist) := by
  rw [List.map_reverse]
  unfold List.Sorted
  rw [List.pairwise_reverse, List.pairwise_map]
  exact h.imp (fun hab => answerLe_dist_le _ _ hab)

theorem clamp01_eq_self (r : ℚ) (h0 : 0 ≤ r) (h1 : r ≤ 1) : clamp01 r = r := by
  unfold clamp01
  rw [max_eq_left h0, min_eq_left h1]

/-- The loop invariant of `topk_query`: the heap is the sorted-descending
multiset of the `min k |D|` smallest defined distances seen so far (`D`),
every heap distance is at most every non-heaped one, and the current
radius is 1 while the heap is short of `k`, afterwards the heap maximum. -/
def TopkInv (k : ℕ) (D : List ℚ) (st : TopkState) : Prop :=
  List.Sorted heapGe st.heap ∧
  st.heap.length = min k D.length ∧
  (∃ rest, D.Perm (st.heap.map Answer.dist ++ rest) ∧
    ∀ x ∈ st.heap.map Answer.dist, ∀ y ∈ rest, x ≤ y) ∧
  ((st.heap.length < k ∧ st.radius = 1) ∨
    (¬ st.heap.length < k ∧ ∃ top rest2, st.heap = top :: rest2 ∧ st.radius = top.dist))

theorem topkInv_radius_bounds (k : ℕ) (D : List ℚ) (st : TopkState)
    (hD : ∀ x ∈ D, 0 ≤ x ∧ x ≤ 1) (hinv : TopkInv k D st) :
    0 ≤ st.radius ∧ st.radius ≤ 1 := by
  obtain ⟨hsort, hlen, ⟨rest, hperm, hbound⟩, hrad⟩ := hinv
  rcases hrad with ⟨_, hr1⟩ | ⟨_, top, rest2, hheap, hr⟩
  · rw [hr1]; norm_num
  · rw [hr]
    have : top.dist ∈ D := by
      refine hperm.mem_iff.mpr (List.mem_append.mpr (Or.inl ?_))
      rw [hheap]
      exact List.mem_map_of_mem Answer.dist (List.mem_cons_self top rest2)
    exact hD top.dist this

theorem topkStep_inv (cfg : FilterConfig) (qm : List ℕ) (k : ℕ) (hk : 1 ≤ k)
    (D : List ℚ) (st : TopkState) (hD : ∀ x ∈ D, 0 ≤ x ∧ x ≤ 1)
    (hinv : TopkInv k D st) (rec : RecordM) :
    ∃ st2, topkStep cfg qm k st rec = some st2 ∧
      TopkInv k (D ++ (jaccardDistance qm rec.set).toList) st2 := by
  have hrad := topkInv_radius_bounds k D st hD hinv
  have hclamp : clamp01 st.radius = st.radius := clamp01_eq_self st.radius hrad.1 hrad.2
  have hchar := acceptDist_evaluate qm rec.set st.radius cfg
  rw [hclamp] at hchar
  obtain ⟨hsort, hlen, ⟨rest, hperm, hbound⟩, hradinv⟩ := hinv
  rcases hev : evaluate qm st.radius cfg rec.set with _ | _ | _ | _ | d
  -- non-accepted cases: the step keeps the state
  case LengthFiltered | PositionFiltered | Verified | Undefined =>
    rw [hev] at hchar
    simp only [acceptDist] at hchar
    refine ⟨st, ?_, ?_⟩
    · unfold topkStep
      rw [hev]
    · rcases hjd : jaccardDistance qm rec.set with _ | d0
      · simp only [hjd, Option.toList_none, List.append_nil]
        exact ⟨hsort, hlen, ⟨rest, hperm, hbound⟩, hradinv⟩
      · rw [hjd] at hchar
        simp only [Option.some_bind] at hchar
        have hnle : ¬ d0 ≤ st.radius := by
          intro hcon
          rw [if_pos hcon] at hchar
          exact Option.noConfusion hchar
        have hd0 : 0 ≤ d0 ∧ d0 ≤ 1 := jaccardDistance_bounds qm rec.set d0 hjd
        rcases hradinv with ⟨hlt, hr1⟩ | ⟨hnlt, top, rest2, hheap, hr⟩
        · exact absurd (hr1 ▸ hd0.2) hnle
        · have hToplesD0 : top.dist ≤ d0 := le_of_not_le (fun hcon => hnle (hr ▸ hcon))
          refine ⟨hsort, ?_, ⟨rest ++ [d0], ?_, ?_⟩, Or.inr ⟨hnlt, top, rest2, hheap, hr⟩⟩
          · simp only [hjd, Option.toList_some, List.length_append, List.length_cons,
              List.length_nil]
            omega
          · simp only [hjd, Option.toList_some]
            have h2 : (st.heap.map Answer.dist ++ rest) ++ [d0] =
                st.heap.map Answer.dist ++ (rest ++ [d0]) := List.append_assoc ..
            exact h2 ▸ (hperm.append_right [d0])
          · intro x hx y hy
            rcases List.mem_append.mp hy with hy2 | hy2
            · exact hbound x hx y hy2
            · have hxtop : x ≤ top.dist := by
                rw [hheap] at hx
                rcases List.mem_cons.mp hx with rfl | hx2
                · exact le_rfl
                · obtain ⟨b, hb, rfl⟩ := List.mem_map.mp hx2
                  exact sorted_head_ge top rest2 (hheap ▸ hsort) b hb
              have : y = d0 := by simpa using hy2
              rw [this]
              exact hxtop.trans hToplesD0
  case Accepted =>
    rw [hev] at hchar
    simp only [acceptDist] at hchar
    rcases hjd : jaccardDistance qm rec.set with _ | d0
    · rw [hjd] at hchar
      simp only [Option.none_bind] at hchar
      exact Option.noConfusion hchar
    rw [hjd] at hchar
    simp only [Option.some_bind] at hchar
    have hle : d0 ≤ st.radius := by
      by_contra hcon
      rw [if_neg hcon] at hchar
      exact Option.noConfusion hchar
    rw [if_pos hle] at hchar
    have hdd : d = d0 := Option.some.inj hchar
    subst hdd
    have hd0 : 0 ≤ d ∧ d ≤ 1 := jaccardDistance_bounds qm rec.set d hjd
    have hmapPush : ∀ (l : List Answer),
        ((heapPush ⟨rec.id, d⟩ l).map Answer.dist).Perm (d :: l.map Answer.dist) :=
      fun l => (heapPush_perm ⟨rec.id, d⟩ l).map Answer.dist
    have hstep : topkStep cfg qm k st rec =
        (if st.heap.length < k then
          (if (heapPush ⟨rec.id, d⟩ st.heap).length = k then
            match heapPush ⟨rec.id, d⟩ st.heap with
            | [] => none
            | top :: _ => some ⟨heapPush ⟨rec.id, d⟩ st.heap, top.dist⟩
          else some ⟨heapPush ⟨rec.id, d⟩ st.heap, st.radius⟩)
        else
          match st.heap with
          | [] => none
          | top :: rest =>
            if d < top.dist then
              match heapPush ⟨rec.id, d⟩ rest with
              | [] => none
              | top2 :: rest2 => some ⟨top2 :: rest2, top2.dist⟩
            else some st) := by
      unfold topkStep
      rw [hev]
    by_cases hlt : st.heap.length < k
    -- heap not yet full: push, possibly locking the radius
    · have hrestnil : rest = [] := by
        have h1 := hperm.length_eq
        rw [List.length_append, List.length_map] at h1
        have h2 : st.heap.length = D.length := by omega
        rw [h2] at h1
        exact List.eq_nil_of_length_eq_zero (by omega)
      subst hrestnil
      have hpermD : D.Perm (st.heap.map Answer.dist) := by
        simpa using hperm
      rcases hh : heapPush ⟨rec.id, d⟩ st.heap with _ | ⟨top2, hrest2⟩
      · exfalso
        have hl := heapPush_length ⟨rec.id, d⟩ st.heap
        rw [hh] at hl
        simp at hl
      have hsorted2 : List.Sorted heapGe (top2 :: hrest2) := by
        rw [← hh]
        exact heapPush_sorted ⟨rec.id, d⟩ st.heap hsort
      have hlen2 : (top2 :: hrest2).length = st.heap.length + 1 := by
        rw [← hh]
        exact heapPush_length ..
      have hpermNew : (D ++ [d]).Perm ((top2 :: hrest2).map Answer.dist ++ []) := by
        rw [List.append_nil, ← hh]
        refine (List.perm_append_comm).trans ?_
        exact ((hmapPush st.heap).trans (hpermD.symm.cons d)).symm
      by_cases heq : (top2 :: hrest2).length = k
      · refine ⟨⟨top2 :: hrest2, top2.dist⟩, ?_, ?_⟩
        · rw [hstep, if_pos hlt, hh, if_pos heq]
        · refine ⟨hsorted2, ?_, ⟨[], ?_, ?_⟩,
            Or.inr ⟨by show ¬ (top2 :: hrest2).length < k; omega,
              top2, hrest2, rfl, rfl⟩⟩
          · show (top2 :: hrest2).length = _
            simp only [hjd, Option.toList_some, List.length_append, List.length_cons,
              List.length_nil, heq]
            have := hpermNew.length_eq
            simp only [List.length_append, List.length_map, List.length_cons,
              List.length_nil] at this
            omega
          · simpa only [hjd, Option.toList_some] using hpermNew
          · intro x _ y hy
            simp at hy
      · refine ⟨⟨top2 :: hrest2, st.radius⟩, ?_, ?_⟩
        · rw [hstep, if_pos hlt, hh, if_neg heq]
        · have hlt2 : (top2 :: hrest2).length < k := by
            rcases lt_or_eq_of_le (Nat.succ_le_of_lt hlt) with h2 | h2
            · rw [hlen2]; exact h2
            · exact absurd (hlen2.trans h2) heq
          have hr1 : st.radius = 1 := by
            rcases hradinv with ⟨_, hr1⟩ | ⟨hnlt, _⟩
            · exact hr1
            · exact absurd hlt hnlt
          refine ⟨hsorted2, ?_, ⟨[], ?_, ?_⟩,
            Or.inl ⟨by show (top2 :: hrest2).length < k; exact hlt2, hr1⟩⟩
          · show (top2 :: hrest2).length = _
            simp only [hjd, Option.toList_some, List.length_append, List.length_cons,
              List.length_nil]
            have := hpermNew.length_eq
            simp only [List.length_append, List.length_map, List.length_cons,
              List.length_nil] at this
            omega
          · simpa only [hjd, Option.toList_some] using hpermNew
          · intro x _ y hy
            simp at hy
    -- heap full
    · rcases hradinv with ⟨hlt2, _⟩ | ⟨_, top, rest2, hheap, hr⟩
      · exact absurd hlt2 hlt
      have hsort2 : List.Sorted heapGe rest2 := by
        have hs := hheap ▸ hsort
        exact (List.sorted_cons.mp hs).2
      by_cases hdt : d < top.dist
      -- replace the maximum
      · rcases hh : heapPush ⟨rec.id, d⟩ rest2 with _ | ⟨top2, hrest2⟩
        · exfalso
          have hl := heapPush_length ⟨rec.id, d⟩ rest2
          rw [hh] at hl
          simp at hl
        refine ⟨⟨top2 :: hrest2, top2.dist⟩, ?_, ?_⟩
        · rw [hstep, if_neg hlt, hheap]
          show (if d < top.dist then
              match heapPush ⟨rec.id, d⟩ rest2 with
              | [] => none
              | top2 :: rest2 => some ⟨top2 :: rest2, top2.dist⟩
            else some st) = _
          rw [if_pos hdt, hh]
        · have hsorted2 : List.Sorted heapGe (top2 :: hrest2) := by
            rw [← hh]
            exact heapPush_sorted ⟨rec.id, d⟩ rest2 hsort2
          have hlen2 : (top2 :: hrest2).length = st.heap.length := by
            rw [← hh, heapPush_length, hheap, List.length_cons]
          have hpermNew : (D ++ [d]).Perm
              ((top2 :: hrest2).map Answer.dist ++ (top.dist :: rest)) := by
            have hstep1 : (D ++ [d]).Perm (d :: D) := List.perm_append_comm
            have hstep2 : (d :: D).Perm
                (d :: (top.dist :: rest2.map Answer.dist ++ rest)) := by
              refine List.Perm.cons d ?_
              have hmd : st.heap.map Answer.dist = top.dist :: rest2.map Answer.dist := by
                rw [hheap, List.map_cons]
              rw [hmd] at hperm
              exact hperm
            have hstep3 : (d :: (top.dist :: rest2.map Answer.dist ++ rest)).Perm
                ((d :: rest2.map Answer.dist) ++ (top.dist :: rest)) := by
              have h1 : (d :: rest2.map Answer.dist) ++ (top.dist :: rest) =
                  d :: (rest2.map Answer.dist ++ top.dist :: rest) := rfl
              rw [h1]
              refine List.Perm.cons d ?_
              have h2 : (rest2.map Answer.dist ++ top.dist :: rest).Perm
                  (top.dist :: (rest2.map Answer.dist ++ rest)) := List.perm_middle
              exact h2.symm
            have hstep4 : ((d :: rest2.map Answer.dist) ++ (top.dist :: rest)).Perm
                ((top2 :: hrest2).map Answer.dist ++ (top.dist :: rest)) := by
              refine List.Perm.append_right (top.dist :: rest) ?_
              rw [← hh]
              exact (hmapPush rest2).symm
            exact ((hstep1.trans hstep2).trans hstep3).trans hstep4
          refine ⟨hsorted2, ?_, ⟨top.dist :: rest, ?_, ?_⟩,
            Or.inr ⟨by show ¬ (top2 :: hrest2).length < k; rw [hlen2]; exact hlt,
              top2, hrest2, rfl, rfl⟩⟩
          · show (top2 :: hrest2).length = _
            simp only [hjd, Option.toList_some, List.length_append, List.length_cons,
              List.length_nil, hlen2]
            omega
          · simpa only [hjd, Option.toList_some] using hpermNew
          · intro x hx y hy
            have hxmem : x = d ∨ x ∈ rest2.map Answer.dist := by
              have hm1 : x ∈ (heapPush ⟨rec.id, d⟩ rest2).map Answer.dist := hh ▸ hx
              have hm2 := (hmapPush rest2).mem_iff.mp hm1
              simpa using hm2
            have hxle : x ≤ top.dist := by
              rcases hxmem with rfl | hx2
              · exact hdt.le
              · obtain ⟨b, hb, rfl⟩ := List.mem_map.mp hx2
                exact sorted_head_ge top rest2 (hheap ▸ hsort) b hb
            rcases List.mem_cons.mp hy with rfl | hy2
            · exact hxle
            · have htop_le_y : top.dist ≤ y := by
                refine hbound top.dist ?_ y hy2
                rw [hheap, List.map_cons]
                exact List.mem_cons_self ..
              exact hxle.trans htop_le_y
      -- tie or larger: skip
      · refine ⟨st, ?_, ?_⟩
        · rw [hstep, if_neg hlt, hheap]
          show (if d < top.dist then
              match heapPush ⟨rec.id, d⟩ rest2 with
              | [] => none
              | top2 :: rest2 => some ⟨top2 :: rest2, top2.dist⟩
            else some st) = _
          rw [if_neg hdt]
        · have htople : top.dist ≤ d := not_lt.mp hdt
          refine ⟨hsort, ?_, ⟨rest ++ [d], ?_, ?_⟩, Or.inr ⟨hlt, top, rest2, hheap, hr⟩⟩
          · simp only [hjd, Option.toList_some, List.length_append, List.length_cons,
              List.length_nil]
            omega
          · simp only [hjd, Option.toList_some]
            have h2 : (st.heap.map Answer.dist ++ rest) ++ [d] =
                st.heap.map Answer.dist ++ (rest ++ [d]) := List.append_assoc ..
            exact h2 ▸ (hperm.append_right [d])
          · intro x hx y hy
            have hxle : x ≤ top.dist := by
              rw [hheap] at hx
              rcases List.mem_cons.mp hx with rfl | hx2
              · exact le_rfl
              · obtain ⟨b, hb, rfl⟩ := List.mem_map.mp hx2
                exact sorted_head_ge top rest2 (hheap ▸ hsort) b hb
            rcases List.mem_append.mp hy with hy2 | hy2
            · exact hbound x hx y hy2
            · have hyd : y = d := by simpa using hy2
              rw [hyd]
              exact hxle.trans htople

theorem topk_fold_inv (cfg : FilterConfig) (qm : List ℕ) (k : ℕ) (hk : 1 ≤ k) :
    ∀ (rl : List RecordM) (D : List ℚ) (st : TopkState),
      (∀ x ∈ D, 0 ≤ x ∧ x ≤ 1) → TopkInv k D st →
      ∃ st2, rl.foldlM (fun st rec => topkStep cfg qm k st rec) st = some st2 ∧
        TopkInv k (D ++ rl.filterMap (fun rec => jaccardDistance qm rec.set)) st2 := by
  intro rl
  induction rl with
  | nil =>
    intro D st hD hinv
    exact ⟨st, rfl, by simpa using hinv⟩
  | cons r rs ih =>
    intro D st hD hinv
    obtain ⟨st1, hstep, hinv1⟩ := topkStep_inv cfg qm k hk D st hD hinv r
    have hD1 : ∀ x ∈ D ++ (jaccardDistance qm r.set).toList, 0 ≤ x ∧ x ≤ 1 := by
      intro x hx
      rcases List.mem_append.mp hx with hx | hx
      · exact hD x hx
      · rcases hjd : jaccardDistance qm r.set with _ | d0
        · rw [hjd] at hx
          simp at hx
        · rw [hjd] at hx
          simp only [Option.toList_some, List.mem_cons, List.not_mem_nil, or_false] at hx
          exact hx ▸ jaccardDistance_bounds qm r.set d0 hjd
    obtain ⟨st2, hfold, hinv2⟩ := ih (D ++ (jaccardDistance qm r.set).toList) st1 hD1 hinv1
    refine ⟨st2, ?_, ?_⟩
    · rw [List.foldlM_cons, hstep]
      exact hfold
    · rw [List.filterMap_cons]
      rcases hjd : jaccardDistance qm r.set with _ | d0
      · rw [hjd] at hinv2
        simpa using hinv2
      · rw [hjd] at hinv2
        simp only [Option.toList_some] at hinv2
        have hEq : (D ++ [d0]) ++ rs.filterMap (fun rec => jaccardDistance qm rec.set) =
            D ++ d0 :: rs.filterMap (fun rec => jaccardDistance qm rec.set) := by
          rw [List.append_assoc]
          rfl
        rw [← hEq]
        exact hinv2

set_option maxHeartbeats 800000 in
/-- C3 (amended): the top-k contract for `k ≥ 1`.  `topk_query(q, k)`
returns (without panicking) a vector `v` of `min k m` answers, where `m`
counts the records with a defined distance to the query (records that do
not form a both-empty pair with it); `v` is sorted ascending by distance;
and the multiset of defined distances splits into the returned distances
plus a remainder that is pointwise at least every returned distance —
every returned distance is ≤ every non-returned defined distance. -/
theorem C3_topk_contract (records : List RecordM) (u : ℕ) (cfg : FilterConfig)
    (q : List ℕ) (k : ℕ) (hk : 1 ≤ k) :
    ∃ v rest, topkQuery records u cfg q k = some v ∧
      v.length = min k (definedDistances records u q).length ∧
      List.Sorted (· ≤ ·) (v.map Answer.dist) ∧
      (definedDistances records u q).Perm (v.map Answer.dist ++ rest) ∧
      ∀ x ∈ v.map Answer.dist, ∀ y ∈ rest, x ≤ y := by
  have hinv0 : TopkInv k [] ⟨[], 1⟩ := by
    refine ⟨List.sorted_nil, by simp, ⟨[], by simp, by simp⟩,
      Or.inl ⟨by simpa using hk, rfl⟩⟩
  obtain ⟨st2, hfold, hinv⟩ := topk_fold_inv cfg (applyMapping (mappingTable records u) q) k hk
    (mapRecords records u) [] ⟨[], 1⟩ (by simp) hinv0
  have hDeq : ([] : List ℚ) ++ (mapRecords records u).filterMap
      (fun rec => jaccardDistance (applyMapping (mappingTable records u) q) rec.set) =
      definedDistances records u q := by
    rw [List.nil_append]
    rfl
  rw [hDeq] at hinv
  obtain ⟨hsort, hlen, ⟨rest, hperm, hbound⟩, _⟩ := hinv
  refine ⟨st2.heap.reverse, rest, ?_, ?_, ?_, ?_, ?_⟩
  · simp only [topkQuery]
    rw [hfold]
    rfl
  · rw [List.length_reverse]
    exact hlen
  · exact heap_reverse_dist_sorted st2.heap hsort
  · refine hperm.trans ?_
    refine List.Perm.append_right rest ?_
    rw [List.map_reverse]
    exact (List.reverse_perm _).symm
  · intro x hx y hy
    refine hbound x ?_ y hy
    rw [List.map_reverse, List.mem_reverse] at hx
    exact hx

/-- Witness for C3 at one record `(0, [0])`, universe 1, empty query,
`k = 1`. -/
theorem C3_witness :
    ∃ v rest, topkQuery [⟨0, [0]⟩] 1 ⟨false, false⟩ [] 1 = some v ∧
      v.length = min 1 (definedDistances [⟨0, [0]⟩] 1 []).length ∧
      List.Sorted (· ≤ ·) (v.map Answer.dist) ∧
      (definedDistances [⟨0, [0]⟩] 1 []).Perm (v.map Answer.dist ++ rest) ∧
      ∀ x ∈ v.map Answer.dist, ∀ y ∈ rest, x ≤ y :=
  C3_topk_contract [⟨0, [0]⟩] 1 ⟨false, false⟩ [] 1 le_rfl

/-- C3, claim as stated, is false: with one record and `k = 0` the query
panics instead of returning 0 answers, and with one record forming a
both-empty pair with the query and `k = 1` it returns 0 answers instead
of 1. -/
theorem C3_counterexample :
    topkQuery [⟨0, [0]⟩] 1 ⟨false, false⟩ [] 0 = none ∧
    topkQuery [⟨0, []⟩] 1 ⟨false, false⟩ [] 1 = some [] := by
  constructor <;>
    norm_num +decide [topkQuery, topkStep, mapRecords, mappingTable, sortedElemFreqs,
      freqOf, freqLe, List.insertionSort, List.orderedInsert, List.enum, List.enumFrom,
      List.range, List.range.loop, applyMapping, fromUnsorted, dedupAdj, heapPush,
      List.foldlM, evaluate, threshold, clamp01_ite, overlapFactor, jaccardDistance,
      interCount, interCountF]
